import Mathlib

/-!
# cronkoans: the cron-expression validator (`internal/koan/validator.go`)

A shallow embedding of `ValidateCronExpression`, `validateField`,
`validateRange`, `validateSingleValue`, `DescribeCronExpression` and
`describeField`, of `Koan.CheckAnswer` and `normalizeAnswer` (`koan.go`,
`utils.go`), together with the parts of the Go runtime library they call
(`strings.TrimSpace`, `strings.Fields`, `strings.Split`, `strings.Join`,
`strings.ToLower`, `strconv.Atoi`, the `%d` verb of `fmt`).

Modelling conventions.

* A Go `string` is modelled as a list of Unicode code points (`List Char`), so
  the model covers the strings that are valid UTF-8.  Every byte-level
  operation of the validator (`field[2:]` after the prefix `*/`, splitting on
  `/`, `,` and `-`) acts at ASCII boundaries, where bytes and code points
  coincide.
* A Go `int` is a 64-bit signed integer, modelled as an `Int` together with the
  predicate `isInt`; `Atoi` refuses text whose value does not fit.
* A Go `error` is modelled by its message: `none` is the `nil` error and
  `some msg` is an error whose `Error()` text is `msg`.
* `unicode.ToLower` needs the Unicode case table of the Go runtime outside
  ASCII.  That table is the parameter `tbl`; on ASCII the mapping is the fixed
  one of the runtime and does not depend on `tbl`.
-/

namespace CronKoans

/-- A Go string, as its sequence of code points. -/
abbrev GoString := List Char

/-- A Go `error` value, as its message; `none` is `nil`. -/
abbrev error := Option GoString

/-- The range of the Go type `int` on a 64-bit platform. -/
def isInt (v : Int) : Prop := -9223372036854775808 ≤ v ∧ v ≤ 9223372036854775807

instance (v : Int) : Decidable (isInt v) := by unfold isInt; infer_instance

/-! ## Runtime library -/

/-- The predicate `unicode.IsSpace`: the Latin-1 spaces and the code points with
the Unicode White_Space property. -/
def isSpace (c : Char) : Bool :=
  let n := c.toNat
  n == 9 || n == 10 || n == 11 || n == 12 || n == 13 || n == 32 || n == 0x85 || n == 0xA0 ||
  n == 0x1680 || (0x2000 ≤ n && n ≤ 0x200a) || n == 0x2028 || n == 0x2029 || n == 0x202f ||
  n == 0x205f || n == 0x3000

/-- The function `strings.TrimSpace`: drop the leading and the trailing white space. -/
def TrimSpace (s : GoString) : GoString :=
  (s.dropWhile isSpace).rdropWhile isSpace

/-- Cut a string at every code point satisfying `p`; the pieces may be empty. -/
def splitBy (p : Char → Bool) : GoString → List GoString
  | [] => [[]]
  | c :: cs =>
    if p c then [] :: splitBy p cs
    else
      match splitBy p cs with
      | [] => [[c]]
      | w :: ws => (c :: w) :: ws

/-- The function `strings.Split(s, sep)` for a separator `sep` of one ASCII
character, which is what every call site of the validator passes. -/
def Split (s : GoString) (sep : Char) : List GoString :=
  splitBy (fun c => c == sep) s

/-- The function `strings.Fields`: the maximal runs of non-space code points. -/
def Fields (s : GoString) : List GoString :=
  (splitBy isSpace s).filter (fun w => !w.isEmpty)

/-- The function `strings.Contains(s, sub)` for `sub` of one ASCII character. -/
def Contains (s : GoString) (c : Char) : Bool := s.contains c

/-- The function `strings.HasPrefix`. -/
def HasPrefix (s pre : GoString) : Bool := pre.isPrefixOf s

/-- The function `unicode.ToLower`: fixed on ASCII, the case table `tbl` elsewhere. -/
def toLowerRune (tbl : Char → Char) (r : Char) : Char :=
  if r.toNat ≤ 127 then
    (if 65 ≤ r.toNat ∧ r.toNat ≤ 90 then Char.ofNat (r.toNat + 32) else r)
  else tbl r

/-- The function `strings.ToLower`. -/
def ToLower (tbl : Char → Char) (s : GoString) : GoString :=
  s.map (toLowerRune tbl)

/-- The decimal digit `d` as a character. -/
def digitChar (d : Nat) : Char := Char.ofNat (48 + d)

/-- Is `c` one of `0` .. `9`. -/
def isDigit (c : Char) : Bool := 48 ≤ c.toNat && c.toNat ≤ 57

/-- The decimal digits of `n` in front of `acc`; `fuel` bounds the number of digits. -/
def toDigits : Nat → Nat → GoString → GoString
  | 0, _, acc => acc
  | fuel + 1, n, acc =>
    if n < 10 then digitChar n :: acc
    else toDigits fuel (n / 10) (digitChar (n % 10) :: acc)

/-- The decimal text of a natural number. -/
def formatNat (n : Nat) : GoString := toDigits (n + 1) n []

/-- The text `fmt` prints for an integer under `%d` (also `strconv.Itoa`). -/
def Itoa (v : Int) : GoString :=
  if v < 0 then '-' :: formatNat v.natAbs else formatNat v.natAbs

/-- Read a run of decimal digits, most significant first, onto `acc`. -/
def parseDigits : GoString → Nat → Option Nat
  | [], acc => some acc
  | c :: cs, acc => if isDigit c then parseDigits cs (acc * 10 + (c.toNat - 48)) else none

/-- The function `strconv.Atoi`: an optional sign, then one or more decimal
digits, and the value has to fit the type `int`; `none` is a non-nil error. -/
def Atoi (s : GoString) : Option Int :=
  match s with
  | [] => none
  | c :: cs =>
    let ds := if c = '-' ∨ c = '+' then cs else c :: cs
    if ds = [] then none
    else
      match parseDigits ds 0 with
      | none => none
      | some n =>
        let v : Int := if c = '-' then -(n : Int) else (n : Int)
        if isInt v then some v else none

/-! ## The validator -/

/-- The function `validateSingleValue` of `validator.go`. -/
def validateSingleValue (valueStr : GoString) (min max : Int) (fieldName : GoString) : error :=
  match Atoi (TrimSpace valueStr) with
  | none => some ("invalid value: ".toList ++ valueStr)
  | some value =>
    if fieldName = "weekday".toList ∧ value = 7 then none
    else if value < min ∨ value > max then
      some ("value ".toList ++ Itoa value ++ " out of bounds [".toList ++ Itoa min ++
        "-".toList ++ Itoa max ++ "]".toList)
    else none

/-- The function `validateRange` of `validator.go`. -/
def validateRange (rangeStr : GoString) (min max : Int) (_fieldName : GoString) : error :=
  match Split rangeStr '-' with
  | [p0, p1] =>
    match Atoi (TrimSpace p0) with
    | none => some ("invalid range start: ".toList ++ p0)
    | some start =>
      match Atoi (TrimSpace p1) with
      | none => some ("invalid range end: ".toList ++ p1)
      | some endVal =>
        if start < min ∨ start > max then
          some ("range start ".toList ++ Itoa start ++ " out of bounds [".toList ++ Itoa min ++
            "-".toList ++ Itoa max ++ "]".toList)
        else if endVal < min ∨ endVal > max then
          some ("range end ".toList ++ Itoa endVal ++ " out of bounds [".toList ++ Itoa min ++
            "-".toList ++ Itoa max ++ "]".toList)
        else if start > endVal then
          some ("range start ".toList ++ Itoa start ++ " cannot be greater than end ".toList ++
            Itoa endVal)
        else none
  | _ => some ("invalid range syntax: ".toList ++ rangeStr)

/-- One element of a list field: a range when it contains `-`, a single value otherwise
(the body of the loop over `values` in `validateField`). -/
def validateListElem (v : GoString) (min max : Int) (fieldName : GoString) : error :=
  let v := TrimSpace v
  if Contains v '-' then validateRange v min max fieldName
  else validateSingleValue v min max fieldName

/-- The loop `for _, v := range values` of `validateField`: the first error stops it. -/
def validateList (values : List GoString) (min max : Int) (fieldName : GoString) : error :=
  match values with
  | [] => none
  | v :: rest =>
    match validateListElem v min max fieldName with
    | some err => some err
    | none => validateList rest min max fieldName

/-- The function `validateField` of `validator.go`. -/
def validateField (field : GoString) (min max : Int) (fieldName : GoString) : error :=
  if field = "*".toList then none
  else if HasPrefix field "*/".toList then
    let stepStr := field.drop 2
    match Atoi stepStr with
    | none => some ("invalid step value: ".toList ++ stepStr)
    | some step =>
      if step ≤ 0 then some ("step value must be positive, got ".toList ++ Itoa step)
      else none
  else if Contains field '/' && Contains field '-' then
    match Split field '/' with
    | [p0, p1] =>
      match validateRange p0 min max fieldName with
      | some err => some err
      | none =>
        match Atoi p1 with
        | none => some ("invalid step value: ".toList ++ p1)
        | some step =>
          if step ≤ 0 then some ("step value must be positive, got ".toList ++ Itoa step)
          else none
    | _ => some ("invalid step syntax: ".toList ++ field)
  else if Contains field ',' then
    validateList (Split field ',') min max fieldName
  else if Contains field '-' then
    validateRange field min max fieldName
  else validateSingleValue field min max fieldName

/-- The keywords accepted in place of five fields (`specialStrings`). -/
def specialStrings : List GoString :=
  ["@yearly".toList, "@annually".toList, "@monthly".toList, "@weekly".toList,
   "@daily".toList, "@midnight".toList, "@hourly".toList, "@reboot".toList]

/-- One entry of the table `validators` of `ValidateCronExpression`. -/
structure FieldValidator where
  name : GoString
  min : Int
  max : Int
  field : GoString
  position : Nat
deriving DecidableEq

/-- The table `validators` built from the five fields. -/
def validators (f0 f1 f2 f3 f4 : GoString) : List FieldValidator :=
  [⟨"minute".toList, 0, 59, f0, 0⟩,
   ⟨"hour".toList, 0, 23, f1, 1⟩,
   ⟨"day".toList, 1, 31, f2, 2⟩,
   ⟨"month".toList, 1, 12, f3, 3⟩,
   ⟨"weekday".toList, 0, 7, f4, 4⟩]

/-- The loop `for _, v := range validators`: the first failing field stops it and its
error is wrapped with the 1-based position and the name of the field. -/
def runValidators : List FieldValidator → error
  | [] => none
  | v :: rest =>
    match validateField v.field v.min v.max v.name with
    | some err =>
      some ("field ".toList ++ Itoa ((v.position : Int) + 1) ++ " (".toList ++ v.name ++
        "): ".toList ++ err)
    | none => runValidators rest

/-- The function `ValidateCronExpression` of `validator.go`. -/
def ValidateCronExpression (tbl : Char → Char) (expr : GoString) : error :=
  let exprLower := ToLower tbl (TrimSpace expr)
  if exprLower ∈ specialStrings then none
  else
    match Fields expr with
    | [f0, f1, f2, f3, f4] => runValidators (validators f0 f1 f2 f3 f4)
    | fields =>
      some ("cron expression must have exactly 5 fields (minute hour day month weekday), got ".toList
        ++ Itoa (fields.length : Int))

/-! ## The descriptor -/

/-- The function `strings.Join`. -/
def Join : List GoString → GoString → GoString
  | [], _ => []
  | [a], _ => a
  | a :: b :: rest, sep => a ++ sep ++ Join (b :: rest) sep

/-- The map `specialDescriptions` of `DescribeCronExpression`, as its entries. -/
def specialDescriptions : List (GoString × GoString) :=
  [("@yearly".toList, "Once a year at midnight on January 1st (0 0 1 1 *)".toList),
   ("@annually".toList, "Once a year at midnight on January 1st (0 0 1 1 *)".toList),
   ("@monthly".toList, "Once a month at midnight on the 1st (0 0 1 * *)".toList),
   ("@weekly".toList, "Once a week at midnight on Sunday (0 0 * * 0)".toList),
   ("@daily".toList, "Once a day at midnight (0 0 * * *)".toList),
   ("@midnight".toList, "Once a day at midnight (0 0 * * *)".toList),
   ("@hourly".toList, "Once an hour at the start of the hour (0 * * * *)".toList),
   ("@reboot".toList, "Once at system startup".toList)]

/-- The function `describeField` of `validator.go`. -/
def describeField (field : GoString) : GoString :=
  if field = "*".toList then "every".toList
  else if HasPrefix field "*/".toList then "every ".toList ++ field.drop 2
  else field

/-- The slice `parts` of `DescribeCronExpression` after the five appends. -/
def describeParts (f0 f1 f2 f3 f4 : GoString) : List GoString :=
  let parts : List GoString := []
  let parts := if f0 ≠ "*".toList then parts ++ ["at minute ".toList ++ describeField f0] else parts
  let parts := if f1 ≠ "*".toList then parts ++ ["hour ".toList ++ describeField f1] else parts
  let parts := if f2 ≠ "*".toList then parts ++ ["on day ".toList ++ describeField f2] else parts
  let parts := if f3 ≠ "*".toList then parts ++ ["in month ".toList ++ describeField f3] else parts
  let parts := if f4 ≠ "*".toList then parts ++ ["on weekday ".toList ++ describeField f4] else parts
  parts

/-- The function `DescribeCronExpression` of `validator.go`. -/
def DescribeCronExpression (tbl : Char → Char) (expr : GoString) : GoString :=
  let expr := TrimSpace expr
  match specialDescriptions.lookup (ToLower tbl expr) with
  | some desc => desc
  | none =>
    match ValidateCronExpression tbl expr with
    | some err => "Invalid cron expression: ".toList ++ err
    | none =>
      match Fields expr with
      | [f0, f1, f2, f3, f4] =>
        let parts := describeParts f0 f1 f2 f3 f4
        if parts.length = 0 then "Every minute".toList
        else Join parts ", ".toList
      | _ => "Invalid cron expression format".toList

/-! ## Koans (`koan.go`, `utils.go`) -/

/-- The struct `Koan` of `koan.go`. -/
structure Koan where
  ID : GoString
  Description : GoString
  Question : GoString
  Incomplete : GoString
  Answer : GoString
  Hints : List GoString
  Explanation : GoString
deriving DecidableEq

/-- The function `normalizeAnswer` of `utils.go`. -/
def normalizeAnswer (tbl : Char → Char) (answer : GoString) : GoString :=
  TrimSpace (ToLower tbl answer)

/-- The method `Koan.CheckAnswer` of `koan.go`. -/
def Koan.CheckAnswer (tbl : Char → Char) (k : Koan) (userAnswer : GoString) : Bool :=
  normalizeAnswer tbl userAnswer == normalizeAnswer tbl k.Answer

/-! ## The validator without the weekday branch

The same functions with the branch `fieldName == "weekday" && value == 7` of
`validateSingleValue` deleted and nothing else changed; they are compared with the
functions above. -/

/-- The function `validateSingleValue` with the weekday branch deleted. -/
def validateSingleValueNoAlias (valueStr : GoString) (min max : Int) (_fieldName : GoString) :
    error :=
  match Atoi (TrimSpace valueStr) with
  | none => some ("invalid value: ".toList ++ valueStr)
  | some value =>
    if value < min ∨ value > max then
      some ("value ".toList ++ Itoa value ++ " out of bounds [".toList ++ Itoa min ++
        "-".toList ++ Itoa max ++ "]".toList)
    else none

/-- The loop over the elements of a list field, calling `validateSingleValueNoAlias`. -/
def validateListNoAlias (values : List GoString) (min max : Int) (fieldName : GoString) : error :=
  match values with
  | [] => none
  | v :: rest =>
    let v := TrimSpace v
    match (if Contains v '-' then validateRange v min max fieldName
      else validateSingleValueNoAlias v min max fieldName) with
    | some err => some err
    | none => validateListNoAlias rest min max fieldName

/-- The function `validateField`, calling `validateSingleValueNoAlias`. -/
def validateFieldNoAlias (field : GoString) (min max : Int) (fieldName : GoString) : error :=
  if field = "*".toList then none
  else if HasPrefix field "*/".toList then
    let stepStr := field.drop 2
    match Atoi stepStr with
    | none => some ("invalid step value: ".toList ++ stepStr)
    | some step =>
      if step ≤ 0 then some ("step value must be positive, got ".toList ++ Itoa step)
      else none
  else if Contains field '/' && Contains field '-' then
    match Split field '/' with
    | [p0, p1] =>
      match validateRange p0 min max fieldName with
      | some err => some err
      | none =>
        match Atoi p1 with
        | none => some ("invalid step value: ".toList ++ p1)
        | some step =>
          if step ≤ 0 then some ("step value must be positive, got ".toList ++ Itoa step)
          else none
    | _ => some ("invalid step syntax: ".toList ++ field)
  else if Contains field ',' then
    validateListNoAlias (Split field ',') min max fieldName
  else if Contains field '-' then
    validateRange field min max fieldName
  else validateSingleValueNoAlias field min max fieldName

/-- The loop over the table of validators, calling `validateFieldNoAlias`. -/
def runValidatorsNoAlias : List FieldValidator → error
  | [] => none
  | v :: rest =>
    match validateFieldNoAlias v.field v.min v.max v.name with
    | some err =>
      some ("field ".toList ++ Itoa ((v.position : Int) + 1) ++ " (".toList ++ v.name ++
        "): ".toList ++ err)
    | none => runValidatorsNoAlias rest

/-- The function `ValidateCronExpression`, calling `validateFieldNoAlias`. -/
def ValidateCronExpressionNoAlias (tbl : Char → Char) (expr : GoString) : error :=
  let exprLower := ToLower tbl (TrimSpace expr)
  if exprLower ∈ specialStrings then none
  else
    match Fields expr with
    | [f0, f1, f2, f3, f4] => runValidatorsNoAlias (validators f0 f1 f2 f3 f4)
    | fields =>
      some ("cron expression must have exactly 5 fields (minute hour day month weekday), got ".toList
        ++ Itoa (fields.length : Int))

/-! ## Trimmed strings and the normal form of an expression -/

/-- No white space at the front. -/
def noLeadingSpace (l : GoString) : Prop := ∀ c t, l = c :: t → isSpace c = false

/-- No white space at the back. -/
def noTrailingSpace (l : GoString) : Prop := ∀ t c, l = t ++ [c] → isSpace c = false

/-- The fields of an expression joined with single spaces. -/
def normalForm (e : GoString) : GoString := Join (Fields e) " ".toList

/-! ## The description of a valid expression, as the specification words it -/

/-- The labels of the five clauses, in field order. -/
def clauseLabels : List GoString :=
  ["at minute ".toList, "hour ".toList, "on day ".toList, "in month ".toList,
   "on weekday ".toList]

/-- One clause: the label, followed by `every n` for a field `*/n` and by the field text
itself for any other field. -/
def clauseSpec (label field : GoString) : GoString :=
  label ++ (if HasPrefix field "*/".toList then "every ".toList ++ field.drop 2 else field)

/-- The description of five fields: `Every minute` when all of them are `*`, otherwise
the clauses of the fields different from `*`, in field order, joined with `, `. -/
def describeSpec (fields : List GoString) : GoString :=
  if ∀ f ∈ fields, f = "*".toList then "Every minute".toList
  else
    Join (((clauseLabels.zip fields).filter (fun lf => decide (lf.2 ≠ "*".toList))).map
      (fun lf => clauseSpec lf.1 lf.2)) ", ".toList

/-! ## Decimal text: `Atoi` reads back what `Itoa` prints -/

theorem isDigit_digitChar (d : Nat) (h : d < 10) :
    isDigit (digitChar d) = true ∧ (digitChar d).toNat - 48 = d := by
  interval_cases d <;> decide

theorem toDigits_append (fuel n : Nat) (acc : GoString) :
    toDigits fuel n acc = toDigits fuel n [] ++ acc := by
  induction fuel generalizing n acc with
  | zero => simp [toDigits]
  | succ k ih =>
    unfold toDigits
    split
    · simp
    · rw [ih (n / 10) (digitChar (n % 10) :: acc), ih (n / 10) [digitChar (n % 10)]]
      simp

theorem parseDigits_append (xs ys : GoString) (a : Nat) :
    parseDigits (xs ++ ys) a = (parseDigits xs a).bind (parseDigits ys) := by
  induction xs generalizing a with
  | nil => simp [parseDigits]
  | cons c cs ih =>
    simp only [List.cons_append, parseDigits]
    split
    · exact ih _
    · rfl

theorem parseDigits_toDigits (fuel n : Nat) (h : n < fuel) :
    parseDigits (toDigits fuel n []) 0 = some n := by
  induction fuel generalizing n with
  | zero => omega
  | succ k ih =>
    unfold toDigits
    split
    · rename_i h10
      simp [parseDigits, isDigit_digitChar n h10]
    · rename_i h10
      have hlt : n / 10 < k := by omega
      have hd := isDigit_digitChar (n % 10) (Nat.mod_lt n (by decide))
      rw [toDigits_append, parseDigits_append, ih (n / 10) hlt]
      simp only [Option.some_bind, parseDigits, hd.1, hd.2, if_true]
      congr 1
      omega

theorem isDigit_of_mem_toDigits (fuel n : Nat) (c : Char) (h : c ∈ toDigits fuel n []) :
    isDigit c = true := by
  induction fuel generalizing n with
  | zero => simp [toDigits] at h
  | succ k ih =>
    unfold toDigits at h
    split at h
    · rename_i h10
      simp only [List.mem_singleton] at h
      subst h
      exact (isDigit_digitChar n h10).1
    · rw [toDigits_append] at h
      simp only [List.mem_append, List.mem_singleton] at h
      rcases h with h | h
      · exact ih _ h
      · subst h
        exact (isDigit_digitChar (n % 10) (Nat.mod_lt n (by decide))).1

theorem parseDigits_formatNat (n : Nat) : parseDigits (formatNat n) 0 = some n :=
  parseDigits_toDigits (n + 1) n (Nat.lt_succ_self n)

theorem isDigit_of_mem_formatNat (n : Nat) (c : Char) (h : c ∈ formatNat n) :
    isDigit c = true :=
  isDigit_of_mem_toDigits (n + 1) n c h

theorem formatNat_ne_nil (n : Nat) : formatNat n ≠ [] := by
  unfold formatNat toDigits
  split
  · simp
  · rw [toDigits_append]
    simp

theorem isDigit_toNat (c : Char) (h : isDigit c = true) : 48 ≤ c.toNat ∧ c.toNat ≤ 57 := by
  simpa [isDigit] using h

theorem not_isSpace_of_isDigit (c : Char) (h : isDigit c = true) : isSpace c = false := by
  have hc := isDigit_toNat c h
  simp only [isSpace, Bool.or_eq_false_iff, Bool.and_eq_false_imp, beq_eq_false_iff_ne, ne_eq,
    decide_eq_true_eq, decide_eq_false_iff_not]
  omega

theorem ne_of_isDigit (c d : Char) (h : isDigit c = true) (hd : isDigit d = false) : c ≠ d := by
  rintro rfl
  rw [h] at hd
  exact Bool.noConfusion hd

/-- Reading back the text printed for `v`: the value itself when it fits an `int`. -/
theorem Atoi_Itoa (v : Int) : Atoi (Itoa v) = if isInt v then some v else none := by
  have hne := formatNat_ne_nil v.natAbs
  have hp := parseDigits_formatNat v.natAbs
  unfold Itoa
  split
  · rename_i hneg
    have hv : -(v.natAbs : Int) = v := by omega
    simp only [Atoi, true_or, if_true, hne, if_false, hp, hv]
  · rename_i hpos
    have hv : (v.natAbs : Int) = v := by omega
    cases hfm : formatNat v.natAbs with
    | nil => exact absurd hfm hne
    | cons c cs =>
      have hc : isDigit c = true := isDigit_of_mem_formatNat v.natAbs c (by simp [hfm])
      have h1 : c ≠ '-' := ne_of_isDigit c '-' hc (by decide)
      have h2 : c ≠ '+' := ne_of_isDigit c '+' hc (by decide)
      rw [hfm] at hp
      simp only [Atoi, h1, h2, or_self, if_false, hp, hv, reduceCtorEq]

/-! ## White space and splitting -/

theorem TrimSpace_eq_self (s : GoString) (h : ∀ c ∈ s, isSpace c = false) : TrimSpace s = s := by
  have h1 : s.dropWhile isSpace = s := by
    cases s with
    | nil => rfl
    | cons c cs => simp [List.dropWhile, h c (by simp)]
  unfold TrimSpace
  rw [h1, List.rdropWhile_eq_self_iff]
  intro hl
  simp [h _ (List.getLast_mem hl)]

theorem splitBy_of_forall_false (p : Char → Bool) (a : GoString) (h : ∀ c ∈ a, p c = false) :
    splitBy p a = [a] := by
  induction a with
  | nil => rfl
  | cons c cs ih =>
    simp only [splitBy, h c (by simp), ih (fun d hd => h d (by simp [hd]))]
    simp

theorem splitBy_append_cons (p : Char → Bool) (a b : GoString) (x : Char)
    (h : ∀ c ∈ a, p c = false) (hx : p x = true) :
    splitBy p (a ++ x :: b) = a :: splitBy p b := by
  induction a with
  | nil => simp [splitBy, hx]
  | cons c cs ih =>
    have ih2 := ih (fun d hd => h d (by simp [hd]))
    have hc : p c = false := h c (by simp)
    rw [List.cons_append, splitBy, hc, ih2]
    rfl

theorem Split_of_not_mem (s : GoString) (sep : Char) (h : sep ∉ s) : Split s sep = [s] := by
  apply splitBy_of_forall_false
  intro c hc
  simp only [beq_eq_false_iff_ne, ne_eq]
  rintro rfl
  exact h hc

theorem Split_append_cons (a b : GoString) (sep : Char) (h : sep ∉ a) :
    Split (a ++ sep :: b) sep = a :: Split b sep := by
  apply splitBy_append_cons
  · intro c hc
    simp only [beq_eq_false_iff_ne, ne_eq]
    rintro rfl
    exact h hc
  · simp

theorem formatNat_no_space (n : Nat) : ∀ c ∈ formatNat n, isSpace c = false :=
  fun c hc => not_isSpace_of_isDigit c (isDigit_of_mem_formatNat n c hc)

theorem Itoa_no_space (v : Int) : ∀ c ∈ Itoa v, isSpace c = false := by
  intro c hc
  unfold Itoa at hc
  split at hc
  · simp only [List.mem_cons] at hc
    rcases hc with rfl | hc
    · decide
    · exact formatNat_no_space _ c hc
  · exact formatNat_no_space _ c hc

theorem Itoa_of_nonneg (v : Int) (h : 0 ≤ v) : Itoa v = formatNat v.natAbs := by
  unfold Itoa
  rw [if_neg (by omega)]

theorem minus_not_mem_Itoa (v : Int) (h : 0 ≤ v) : '-' ∉ Itoa v := by
  rw [Itoa_of_nonneg v h]
  intro hm
  have := isDigit_of_mem_formatNat _ _ hm
  exact absurd this (by decide)

theorem Atoi_TrimSpace_Itoa (v : Int) :
    Atoi (TrimSpace (Itoa v)) = if isInt v then some v else none := by
  rw [TrimSpace_eq_self _ (Itoa_no_space v), Atoi_Itoa]

theorem Split_Itoa_range (a b : Int) (ha : 0 ≤ a) (hb : 0 ≤ b) :
    Split (Itoa a ++ '-' :: Itoa b) '-' = [Itoa a, Itoa b] := by
  rw [Split_append_cons _ _ _ (minus_not_mem_Itoa a ha), Split_of_not_mem _ _ (minus_not_mem_Itoa b hb)]

theorem validateRange_text_eq (start endVal min max : Int) (fieldName : GoString)
    (hs : 0 ≤ start) (he : 0 ≤ endVal) (his : isInt start) (hie : isInt endVal) :
    validateRange (Itoa start ++ "-".toList ++ Itoa endVal) min max fieldName =
      if start < min ∨ start > max then
        some ("range start ".toList ++ Itoa start ++ " out of bounds [".toList ++ Itoa min ++
          "-".toList ++ Itoa max ++ "]".toList)
      else if endVal < min ∨ endVal > max then
        some ("range end ".toList ++ Itoa endVal ++ " out of bounds [".toList ++ Itoa min ++
          "-".toList ++ Itoa max ++ "]".toList)
      else if start > endVal then
        some ("range start ".toList ++ Itoa start ++ " cannot be greater than end ".toList ++
          Itoa endVal)
      else none := by
  have htxt : Itoa start ++ "-".toList ++ Itoa endVal = Itoa start ++ '-' :: Itoa endVal := by
    rw [List.append_assoc]; rfl
  rw [htxt]
  unfold validateRange
  rw [Split_Itoa_range _ _ hs he]
  simp only [Atoi_TrimSpace_Itoa, his, hie, if_true]

theorem validateRange_text_not_int (start endVal min max : Int) (fieldName : GoString)
    (hs : 0 ≤ start) (he : 0 ≤ endVal) (h : ¬ (isInt start ∧ isInt endVal)) :
    validateRange (Itoa start ++ "-".toList ++ Itoa endVal) min max fieldName ≠ none := by
  have htxt : Itoa start ++ "-".toList ++ Itoa endVal = Itoa start ++ '-' :: Itoa endVal := by
    rw [List.append_assoc]; rfl
  rw [htxt]
  unfold validateRange
  rw [Split_Itoa_range _ _ hs he]
  simp only [Atoi_TrimSpace_Itoa]
  by_cases his : isInt start
  · have hie : ¬ isInt endVal := fun hie => h ⟨his, hie⟩
    simp [his, hie]
  · simp [his]

theorem splitBy_ne_nil (p : Char → Bool) (s : GoString) : splitBy p s ≠ [] := by
  cases s with
  | nil => simp [splitBy]
  | cons c cs =>
    unfold splitBy
    split
    · simp
    · split <;> simp

theorem splitBy_eq_single (p : Char → Bool) (s b : GoString) (h : splitBy p s = [b]) :
    s = b ∧ ∀ c ∈ b, p c = false := by
  induction s generalizing b with
  | nil =>
    simp only [splitBy, List.cons.injEq, and_true] at h
    subst h
    simp
  | cons x xs ih =>
    unfold splitBy at h
    split at h
    · simp only [List.cons.injEq] at h
      exact absurd h.2 (splitBy_ne_nil p xs)
    · rename_i hx
      split at h
      · rename_i hnil
        exact absurd hnil (splitBy_ne_nil p xs)
      · rename_i w ws hw
        simp only [List.cons.injEq] at h
        obtain ⟨rfl, rfl⟩ := h
        obtain ⟨rfl, hall⟩ := ih w hw
        refine ⟨rfl, ?_⟩
        intro c hc
        simp only [List.mem_cons] at hc
        rcases hc with rfl | hc
        · simpa using hx
        · exact hall c hc

theorem splitBy_eq_pair (p : Char → Bool) (s a b : GoString) (h : splitBy p s = [a, b]) :
    ∃ x, p x = true ∧ s = a ++ x :: b ∧ (∀ c ∈ a, p c = false) ∧ ∀ c ∈ b, p c = false := by
  induction s generalizing a with
  | nil => simp [splitBy] at h
  | cons x xs ih =>
    unfold splitBy at h
    split at h
    · rename_i hx
      simp only [List.cons.injEq] at h
      obtain ⟨rfl, h2⟩ := h
      obtain ⟨rfl, hall⟩ := splitBy_eq_single p xs b h2
      exact ⟨x, hx, rfl, by simp, hall⟩
    · rename_i hx
      split at h
      · rename_i hnil
        exact absurd hnil (splitBy_ne_nil p xs)
      · rename_i w ws hw
        simp only [List.cons.injEq] at h
        obtain ⟨rfl, rfl⟩ := h
        obtain ⟨y, hy, rfl, ha, hb⟩ := ih w hw
        refine ⟨y, hy, rfl, ?_, hb⟩
        intro c hc
        simp only [List.mem_cons] at hc
        rcases hc with rfl | hc
        · simpa using hx
        · exact ha c hc

theorem Split_eq_pair_iff (s a b : GoString) (sep : Char) :
    Split s sep = [a, b] ↔ s = a ++ sep :: b ∧ sep ∉ a ∧ sep ∉ b := by
  constructor
  · intro h
    obtain ⟨x, hx, rfl, ha, hb⟩ := splitBy_eq_pair _ s a b h
    have hxs : x = sep := by simpa using hx
    subst hxs
    refine ⟨rfl, ?_, ?_⟩
    · intro hm
      simpa using ha x hm
    · intro hm
      simpa using hb x hm
  · rintro ⟨rfl, ha, hb⟩
    rw [Split_append_cons a b sep ha, Split_of_not_mem b sep hb]

theorem star_toList : "*".toList = ['*'] := rfl

theorem starSlash_toList : "*/".toList = ['*', '/'] := rfl

theorem validateField_starSlash (rest : GoString) (min max : Int) (fieldName : GoString) :
    validateField ("*/".toList ++ rest) min max fieldName =
      match Atoi rest with
      | none => some ("invalid step value: ".toList ++ rest)
      | some step =>
        if step ≤ 0 then some ("step value must be positive, got ".toList ++ Itoa step)
        else none := by
  unfold validateField
  simp [star_toList, starSlash_toList, HasPrefix]

theorem validateField_of_slash_minus (field : GoString) (min max : Int) (fieldName : GoString)
    (hslash : Contains field '/' = true) (hminus : Contains field '-' = true)
    (hpre : HasPrefix field "*/".toList = false) :
    validateField field min max fieldName =
      match Split field '/' with
      | [p0, p1] =>
        match validateRange p0 min max fieldName with
        | some err => some err
        | none =>
          match Atoi p1 with
          | none => some ("invalid step value: ".toList ++ p1)
          | some step =>
            if step ≤ 0 then some ("step value must be positive, got ".toList ++ Itoa step)
            else none
      | _ => some ("invalid step syntax: ".toList ++ field) := by
  have hne : field ≠ "*".toList := by
    rintro rfl
    exact absurd hslash (by decide)
  unfold validateField
  rw [if_neg hne, hpre, hslash, hminus]
  rfl

theorem not_mem_of_count_slash (a b : GoString) (sep : Char)
    (h : (a ++ sep :: b).count sep = 1) : sep ∉ a ∧ sep ∉ b := by
  rw [List.count_append, List.count_cons_self] at h
  constructor
  · apply List.count_eq_zero.mp
    omega
  · apply List.count_eq_zero.mp
    omega

/-! ## Characters that no number may contain -/

theorem Contains_iff (s : GoString) (c : Char) : Contains s c = true ↔ c ∈ s := by
  simp [Contains]

theorem parseDigits_eq_none_of_mem (ds : GoString) (x : Char) (a : Nat) (hx : x ∈ ds)
    (hd : isDigit x = false) : parseDigits ds a = none := by
  induction ds generalizing a with
  | nil => simp at hx
  | cons c cs ih =>
    unfold parseDigits
    split
    · rename_i hc
      simp only [List.mem_cons] at hx
      rcases hx with rfl | hx
      · rw [hd] at hc
        exact Bool.noConfusion hc
      · exact ih _ hx
    · rfl

theorem Atoi_eq_none_of_mem (s : GoString) (x : Char) (hx : x ∈ s) (hd : isDigit x = false)
    (hm : x ≠ '-') (hp : x ≠ '+') : Atoi s = none := by
  cases s with
  | nil => rfl
  | cons c cs =>
    simp only [Atoi]
    by_cases hc : c = '-' ∨ c = '+'
    · have hxc : x ∈ cs := by
        simp only [List.mem_cons] at hx
        rcases hx with rfl | hx
        · rcases hc with h | h
          · exact absurd h hm
          · exact absurd h hp
        · exact hx
      simp only [hc, if_true, parseDigits_eq_none_of_mem cs x 0 hxc hd]
      split <;> rfl
    · simp only [hc, if_false, parseDigits_eq_none_of_mem (c :: cs) x 0 hx hd]
      split <;> rfl

theorem mem_dropWhile_of_mem (p : Char → Bool) (s : GoString) (x : Char) (hx : x ∈ s)
    (hp : p x = false) : x ∈ s.dropWhile p := by
  induction s with
  | nil => simp at hx
  | cons c cs ih =>
    simp only [List.dropWhile]
    split
    · rename_i hc
      simp only [List.mem_cons] at hx
      rcases hx with rfl | hx
      · rw [hp] at hc
        exact Bool.noConfusion hc
      · exact ih hx
    · exact hx

theorem mem_TrimSpace (s : GoString) (x : Char) (hx : x ∈ s) (hsp : isSpace x = false) :
    x ∈ TrimSpace s := by
  unfold TrimSpace List.rdropWhile
  rw [List.mem_reverse]
  apply mem_dropWhile_of_mem _ _ _ _ hsp
  rw [List.mem_reverse]
  exact mem_dropWhile_of_mem _ _ _ hx hsp

theorem validateSingleValue_ne_none_of_mem (s : GoString) (x : Char) (min max : Int)
    (fieldName : GoString) (hx : x ∈ s) (hd : isDigit x = false) (hm : x ≠ '-') (hp : x ≠ '+')
    (hsp : isSpace x = false) : validateSingleValue s min max fieldName ≠ none := by
  unfold validateSingleValue
  rw [Atoi_eq_none_of_mem _ x (mem_TrimSpace s x hx hsp) hd hm hp]
  exact Option.some_ne_none _

theorem validateRange_ne_none_of_mem (s : GoString) (x : Char) (min max : Int)
    (fieldName : GoString) (hx : x ∈ s) (hd : isDigit x = false) (hm : x ≠ '-') (hp : x ≠ '+')
    (hsp : isSpace x = false) : validateRange s min max fieldName ≠ none := by
  unfold validateRange
  split
  · rename_i p0 p1 hsplit
    obtain ⟨rfl, -, -⟩ := (Split_eq_pair_iff s p0 p1 '-').mp hsplit
    simp only [List.mem_append, List.mem_cons] at hx
    rcases hx with hx | hx | hx
    · rw [Atoi_eq_none_of_mem _ x (mem_TrimSpace p0 x hx hsp) hd hm hp]
      exact Option.some_ne_none _
    · exact absurd hx hm
    · split
      · exact Option.some_ne_none _
      · rw [Atoi_eq_none_of_mem _ x (mem_TrimSpace p1 x hx hsp) hd hm hp]
        exact Option.some_ne_none _
  · exact Option.some_ne_none _

theorem validateListElem_ne_none_of_mem (v : GoString) (x : Char) (min max : Int)
    (fieldName : GoString) (hx : x ∈ v) (hd : isDigit x = false) (hm : x ≠ '-') (hp : x ≠ '+')
    (hsp : isSpace x = false) : validateListElem v min max fieldName ≠ none := by
  have hx2 := mem_TrimSpace v x hx hsp
  unfold validateListElem
  simp only []
  split
  · exact validateRange_ne_none_of_mem _ x min max fieldName hx2 hd hm hp hsp
  · exact validateSingleValue_ne_none_of_mem _ x min max fieldName hx2 hd hm hp hsp

theorem mem_splitBy_of_mem (p : Char → Bool) (s : GoString) (x : Char) (hx : x ∈ s)
    (hp : p x = false) : ∃ w ∈ splitBy p s, x ∈ w := by
  induction s with
  | nil => simp at hx
  | cons c cs ih =>
    unfold splitBy
    simp only [List.mem_cons] at hx
    split
    · rename_i hc
      rcases hx with rfl | hx
      · rw [hp] at hc
        exact Bool.noConfusion hc
      · obtain ⟨w, hw, hxw⟩ := ih hx
        exact ⟨w, List.mem_cons_of_mem _ hw, hxw⟩
    · split
      · rename_i hnil
        exact absurd hnil (splitBy_ne_nil p cs)
      · rename_i w ws hws
        rcases hx with rfl | hx
        · exact ⟨x :: w, by simp, by simp⟩
        · obtain ⟨u, hu, hxu⟩ := ih hx
          rw [hws] at hu
          simp only [List.mem_cons] at hu
          rcases hu with rfl | hu
          · exact ⟨c :: u, by simp, List.mem_cons_of_mem _ hxu⟩
          · exact ⟨u, by simp [hu], hxu⟩

theorem mem_Split_of_mem (s : GoString) (sep x : Char) (hx : x ∈ s) (hne : x ≠ sep) :
    ∃ w ∈ Split s sep, x ∈ w :=
  mem_splitBy_of_mem _ s x hx (by simpa using hne)

/-! ## The list form -/

theorem validateList_eq_none_iff (values : List GoString) (min max : Int)
    (fieldName : GoString) :
    validateList values min max fieldName = none ↔
      ∀ v ∈ values, validateListElem v min max fieldName = none := by
  induction values with
  | nil => simp [validateList]
  | cons v rest ih =>
    unfold validateList
    split
    · rename_i err herr
      simp [herr]
    · rename_i hok
      simp [hok, ih]

theorem validateList_first_failure (pre post : List GoString) (v err : GoString)
    (min max : Int) (fieldName : GoString)
    (hpre : ∀ u ∈ pre, validateListElem u min max fieldName = none)
    (hv : validateListElem v min max fieldName = some err) :
    validateList (pre ++ v :: post) min max fieldName = some err := by
  induction pre with
  | nil => simp [validateList, hv]
  | cons u us ih =>
    have hu := hpre u (by simp)
    simp only [List.cons_append, validateList, hu]
    exact ih (fun w hw => hpre w (by simp [hw]))

theorem HasPrefix_starSlash (field : GoString) (h : HasPrefix field "*/".toList = true) :
    ∃ rest, field = "*/".toList ++ rest := by
  have h2 : "*/".toList <+: field := by
    simpa [HasPrefix] using h
  obtain ⟨rest, hrest⟩ := h2
  exact ⟨rest, hrest.symm⟩

theorem validateField_of_comma (field : GoString) (min max : Int) (fieldName : GoString)
    (hcomma : Contains field ',' = true)
    (hpre : HasPrefix field "*/".toList = false)
    (hsm : (Contains field '/' && Contains field '-') = false) :
    validateField field min max fieldName =
      validateList (Split field ',') min max fieldName := by
  have hne : field ≠ "*".toList := by
    rintro rfl
    exact absurd hcomma (by decide)
  unfold validateField
  rw [if_neg hne, hpre, hsm, hcomma]
  rfl

theorem HasPrefix_starSlash_of_no_slash (field : GoString) (h : Contains field '/' = false) :
    HasPrefix field "*/".toList = false := by
  cases hp : HasPrefix field "*/".toList with
  | false => rfl
  | true =>
    obtain ⟨rest, rfl⟩ := HasPrefix_starSlash field hp
    have hmem : Contains ("*/".toList ++ rest) '/' = true :=
      (Contains_iff _ _).mpr (List.mem_append_left _ (by decide))
    rw [hmem] at h
    exact Bool.noConfusion h

theorem validateField_of_comma_no_slash (field : GoString) (min max : Int)
    (fieldName : GoString) (hcomma : Contains field ',' = true)
    (hslash : Contains field '/' = false) :
    validateField field min max fieldName =
      validateList (Split field ',') min max fieldName :=
  validateField_of_comma field min max fieldName hcomma
    (HasPrefix_starSlash_of_no_slash field hslash) (by rw [hslash]; rfl)

/-! ## Deleting the weekday branch -/

theorem validateSingleValue_eq_noAlias (s : GoString) (min max : Int) (fieldName : GoString)
    (h : fieldName = "weekday".toList → min ≤ 7 ∧ 7 ≤ max) :
    validateSingleValue s min max fieldName = validateSingleValueNoAlias s min max fieldName := by
  unfold validateSingleValue validateSingleValueNoAlias
  cases Atoi (TrimSpace s) with
  | none => rfl
  | some value =>
    simp only
    by_cases hw : fieldName = "weekday".toList ∧ value = 7
    · have hb := h hw.1
      rw [if_pos hw, if_neg (by omega)]
    · rw [if_neg hw]

theorem validateList_eq_noAlias (values : List GoString) (min max : Int) (fieldName : GoString)
    (h : fieldName = "weekday".toList → min ≤ 7 ∧ 7 ≤ max) :
    validateList values min max fieldName = validateListNoAlias values min max fieldName := by
  induction values with
  | nil => rfl
  | cons v rest ih =>
    unfold validateList validateListNoAlias validateListElem
    simp only [validateSingleValue_eq_noAlias _ min max fieldName h, ih]

theorem validateField_eq_noAlias (field : GoString) (min max : Int) (fieldName : GoString)
    (h : fieldName = "weekday".toList → min ≤ 7 ∧ 7 ≤ max) :
    validateField field min max fieldName = validateFieldNoAlias field min max fieldName := by
  unfold validateField validateFieldNoAlias
  simp only [validateSingleValue_eq_noAlias _ min max fieldName h,
    validateList_eq_noAlias _ min max fieldName h]

theorem runValidators_eq_noAlias (f0 f1 f2 f3 f4 : GoString) :
    runValidators (validators f0 f1 f2 f3 f4) =
      runValidatorsNoAlias (validators f0 f1 f2 f3 f4) := by
  simp only [validators, runValidators, runValidatorsNoAlias]
  rw [validateField_eq_noAlias f0 0 59 _ (fun h => absurd h (by decide)),
    validateField_eq_noAlias f1 0 23 _ (fun h => absurd h (by decide)),
    validateField_eq_noAlias f2 1 31 _ (fun h => absurd h (by decide)),
    validateField_eq_noAlias f3 1 12 _ (fun h => absurd h (by decide)),
    validateField_eq_noAlias f4 0 7 _ (fun _ => by omega)]

theorem validateField_ne_none_of_slash_only (field : GoString) (min max : Int)
    (fieldName : GoString) (hslash : Contains field '/' = true)
    (hpre : HasPrefix field "*/".toList = false) (hminus : Contains field '-' = false) :
    validateField field min max fieldName ≠ none := by
  have hmem : '/' ∈ field := (Contains_iff _ _).mp hslash
  have hsm : (Contains field '/' && Contains field '-') = false := by
    rw [hminus]; simp
  cases hc : Contains field ',' with
  | true =>
    rw [validateField_of_comma field min max fieldName hc hpre hsm]
    intro hnone
    rw [validateList_eq_none_iff] at hnone
    obtain ⟨w, hw, hxw⟩ := mem_Split_of_mem field ',' '/' hmem (by decide)
    exact validateListElem_ne_none_of_mem w '/' min max fieldName hxw (by decide)
      (by decide) (by decide) (by decide) (hnone w hw)
  | false =>
    have hne : field ≠ "*".toList := by
      rintro rfl
      exact absurd hslash (by decide)
    unfold validateField
    rw [if_neg hne, hpre, hsm, hc, hminus]
    exact validateSingleValue_ne_none_of_mem field '/' min max fieldName hmem (by decide)
      (by decide) (by decide) (by decide)

/-! ## Fields and trimming -/

theorem splitBy_append_sep (p : Char → Bool) (l r : GoString) (c : Char) (hc : p c = true) :
    splitBy p (l ++ c :: r) = splitBy p l ++ splitBy p r := by
  induction l with
  | nil => simp [splitBy, hc]
  | cons x xs ih =>
    rw [List.cons_append, splitBy, splitBy, ih]
    split
    · rfl
    · cases hxs : splitBy p xs with
      | nil => exact absurd hxs (splitBy_ne_nil p xs)
      | cons w ws => rfl

theorem mem_of_mem_splitBy (p : Char → Bool) (s w : GoString) (hw : w ∈ splitBy p s) :
    ∀ c ∈ w, p c = false := by
  induction s generalizing w with
  | nil =>
    simp only [splitBy, List.mem_singleton] at hw
    subst hw
    simp
  | cons x xs ih =>
    unfold splitBy at hw
    split at hw
    · simp only [List.mem_cons] at hw
      rcases hw with rfl | hw
      · simp
      · exact ih w hw
    · rename_i hx
      split at hw
      · rename_i hnil
        exact absurd hnil (splitBy_ne_nil p xs)
      · rename_i u us hus
        simp only [List.mem_cons] at hw
        rcases hw with rfl | hw
        · intro c hc
          simp only [List.mem_cons] at hc
          rcases hc with rfl | hc
          · simpa using hx
          · exact ih u (by simp [hus]) c hc
        · exact ih w (by simp [hus, hw])

theorem Fields_nil : Fields [] = [] := rfl

theorem Fields_append_sep (l r : GoString) (c : Char) (hc : isSpace c = true) :
    Fields (l ++ c :: r) = Fields l ++ Fields r := by
  unfold Fields
  rw [splitBy_append_sep isSpace l r c hc, List.filter_append]

theorem Fields_cons_space (c : Char) (cs : GoString) (hc : isSpace c = true) :
    Fields (c :: cs) = Fields cs := by
  have h := Fields_append_sep [] cs c hc
  simpa [Fields_nil] using h

theorem Fields_concat_space (l : GoString) (c : Char) (hc : isSpace c = true) :
    Fields (l ++ [c]) = Fields l := by
  have h := Fields_append_sep l [] c hc
  simpa [Fields_nil] using h

theorem Fields_dropWhile (s : GoString) : Fields (s.dropWhile isSpace) = Fields s := by
  induction s with
  | nil => rfl
  | cons c cs ih =>
    cases hc : isSpace c with
    | true => rw [List.dropWhile_cons_of_pos hc, ih, Fields_cons_space c cs hc]
    | false => rw [List.dropWhile_cons_of_neg (by simp [hc])]

theorem Fields_rdropWhile (s : GoString) : Fields (s.rdropWhile isSpace) = Fields s := by
  induction s using List.reverseRecOn with
  | nil => rfl
  | append_singleton l c ih =>
    cases hc : isSpace c with
    | true => rw [List.rdropWhile_concat_pos isSpace l c hc, ih, Fields_concat_space l c hc]
    | false => rw [List.rdropWhile_concat_neg isSpace l c (by simp [hc])]

theorem Fields_TrimSpace (s : GoString) : Fields (TrimSpace s) = Fields s := by
  unfold TrimSpace
  rw [Fields_rdropWhile, Fields_dropWhile]

theorem mem_Fields (s w : GoString) (hw : w ∈ Fields s) :
    w ≠ [] ∧ ∀ c ∈ w, isSpace c = false := by
  unfold Fields at hw
  rw [List.mem_filter] at hw
  refine ⟨?_, mem_of_mem_splitBy isSpace s w hw.1⟩
  rintro rfl
  exact absurd hw.2 (by decide)

theorem Fields_ne_nil_of_mem (s : GoString) (x : Char) (hx : x ∈ s) (hsp : isSpace x = false) :
    Fields s ≠ [] := by
  obtain ⟨w, hw, hxw⟩ := mem_splitBy_of_mem isSpace s x hx hsp
  have hmem : w ∈ Fields s := by
    unfold Fields
    rw [List.mem_filter]
    refine ⟨hw, ?_⟩
    cases w with
    | nil => simp at hxw
    | cons a as => rfl
  exact List.ne_nil_of_mem hmem

theorem Fields_of_no_space (s : GoString) (h : ∀ c ∈ s, isSpace c = false) :
    Fields s = if s = [] then [] else [s] := by
  unfold Fields
  rw [splitBy_of_forall_false isSpace s h]
  cases s with
  | nil => rfl
  | cons a as => rfl

theorem noLeadingSpace_dropWhile (s : GoString) : noLeadingSpace (s.dropWhile isSpace) := by
  induction s with
  | nil =>
    intro c t h
    simp at h
  | cons x xs ih =>
    cases hx : isSpace x with
    | true =>
      rw [List.dropWhile_cons_of_pos hx]
      exact ih
    | false =>
      rw [List.dropWhile_cons_of_neg (by simp [hx])]
      intro c t h
      simp only [List.cons.injEq] at h
      rw [← h.1]
      exact hx

theorem noLeadingSpace_of_prefix (l m : GoString) (h : noLeadingSpace l) (hp : m <+: l) :
    noLeadingSpace m := by
  obtain ⟨r, rfl⟩ := hp
  intro c t hm
  exact h c (t ++ r) (by rw [hm]; rfl)

theorem dropWhile_eq_self_of_noLeadingSpace (l : GoString) (h : noLeadingSpace l) :
    l.dropWhile isSpace = l := by
  cases l with
  | nil => rfl
  | cons c t => rw [List.dropWhile_cons_of_neg (by simp [h c t rfl])]

theorem noTrailingSpace_rdropWhile (l : GoString) : noTrailingSpace (l.rdropWhile isSpace) := by
  intro t c h
  have hid := List.rdropWhile_idempotent isSpace l
  rw [h] at hid
  cases hc : isSpace c with
  | false => rfl
  | true =>
    rw [List.rdropWhile_concat_pos isSpace t c hc] at hid
    have hlen := (List.rdropWhile_prefix isSpace t).length_le
    rw [hid] at hlen
    simp at hlen

theorem rdropWhile_eq_self_of_noTrailingSpace (l : GoString) (h : noTrailingSpace l) :
    l.rdropWhile isSpace = l := by
  induction l using List.reverseRecOn with
  | nil => rfl
  | append_singleton t c _ =>
    exact List.rdropWhile_concat_neg isSpace t c (by simp [h t c rfl])

theorem noLeadingSpace_TrimSpace (s : GoString) : noLeadingSpace (TrimSpace s) :=
  noLeadingSpace_of_prefix _ _ (noLeadingSpace_dropWhile s) (List.rdropWhile_prefix isSpace _)

theorem noTrailingSpace_TrimSpace (s : GoString) : noTrailingSpace (TrimSpace s) :=
  noTrailingSpace_rdropWhile _

theorem TrimSpace_eq_self_of_trimmed (l : GoString) (h1 : noLeadingSpace l)
    (h2 : noTrailingSpace l) : TrimSpace l = l := by
  unfold TrimSpace
  rw [dropWhile_eq_self_of_noLeadingSpace l h1, rdropWhile_eq_self_of_noTrailingSpace l h2]

theorem TrimSpace_idem (s : GoString) : TrimSpace (TrimSpace s) = TrimSpace s :=
  TrimSpace_eq_self_of_trimmed _ (noLeadingSpace_TrimSpace s) (noTrailingSpace_TrimSpace s)

theorem two_le_length_Fields (t : GoString) (h1 : noLeadingSpace t) (h2 : noTrailingSpace t)
    (c : Char) (hc : c ∈ t) (hsp : isSpace c = true) : 2 ≤ (Fields t).length := by
  obtain ⟨a, b, rfl⟩ := List.append_of_mem hc
  rw [Fields_append_sep a b c hsp, List.length_append]
  have ha : Fields a ≠ [] := by
    cases a with
    | nil =>
      have := h1 c b rfl
      rw [hsp] at this
      exact Bool.noConfusion this
    | cons x xs =>
      exact Fields_ne_nil_of_mem _ x (by simp) (h1 x (xs ++ c :: b) rfl)
  have hb : Fields b ≠ [] := by
    rcases List.eq_nil_or_concat b with rfl | ⟨L, y, rfl⟩
    · have := h2 a c rfl
      rw [hsp] at this
      exact Bool.noConfusion this
    · rw [List.concat_eq_append]
      apply Fields_ne_nil_of_mem _ y (by simp)
      apply h2 (a ++ c :: L) y
      simp [List.concat_eq_append]
  have ha2 := List.length_pos.mpr ha
  have hb2 := List.length_pos.mpr hb
  omega

/-! ## Joining fields with single spaces -/

theorem Join_cons_cons (a b : GoString) (rest : List GoString) (sep : GoString) :
    Join (a :: b :: rest) sep = a ++ sep ++ Join (b :: rest) sep := rfl

theorem Join_cons_prefix (a : GoString) (rest : List GoString) (sep : GoString) :
    ∃ X, Join (a :: rest) sep = a ++ X := by
  cases rest with
  | nil => exact ⟨[], by simp [Join]⟩
  | cons b rest => exact ⟨sep ++ Join (b :: rest) sep, by rw [Join_cons_cons, List.append_assoc]⟩

theorem space_mem_Join (ws : List GoString) (h : 2 ≤ ws.length) :
    ' ' ∈ Join ws " ".toList := by
  match ws, h with
  | a :: b :: rest, _ =>
    rw [Join_cons_cons]
    exact List.mem_append_left _ (List.mem_append_right _ (by decide))

theorem Fields_Join (ws : List GoString)
    (h : ∀ w ∈ ws, w ≠ [] ∧ ∀ c ∈ w, isSpace c = false) :
    Fields (Join ws " ".toList) = ws := by
  induction ws with
  | nil => rfl
  | cons a rest ih =>
    have ha := h a (by simp)
    cases rest with
    | nil =>
      show Fields a = [a]
      rw [Fields_of_no_space a ha.2, if_neg ha.1]
    | cons b rest =>
      have ih2 := ih (fun w hw => h w (List.mem_cons_of_mem _ hw))
      have heq : Join (a :: b :: rest) " ".toList = a ++ ' ' :: Join (b :: rest) " ".toList := by
        rw [Join_cons_cons, List.append_assoc]; rfl
      rw [heq, Fields_append_sep a _ ' ' (by decide), ih2, Fields_of_no_space a ha.2,
        if_neg ha.1]
      rfl

theorem noLeadingSpace_Join (ws : List GoString)
    (h : ∀ w ∈ ws, w ≠ [] ∧ ∀ c ∈ w, isSpace c = false) :
    noLeadingSpace (Join ws " ".toList) := by
  cases ws with
  | nil =>
    intro c t hj
    exact absurd hj (by simp [Join])
  | cons a rest =>
    obtain ⟨X, hX⟩ := Join_cons_prefix a rest " ".toList
    have ha := h a (by simp)
    intro c t hj
    rw [hX] at hj
    cases a with
    | nil => exact absurd rfl ha.1
    | cons x xs =>
      simp only [List.cons_append, List.cons.injEq] at hj
      rw [← hj.1]
      exact ha.2 x (by simp)

theorem Join_ne_nil (a : GoString) (rest : List GoString) (sep : GoString) (ha : a ≠ []) :
    Join (a :: rest) sep ≠ [] := by
  obtain ⟨X, hX⟩ := Join_cons_prefix a rest sep
  rw [hX]
  simp [ha]

theorem noTrailingSpace_Join (ws : List GoString)
    (h : ∀ w ∈ ws, w ≠ [] ∧ ∀ c ∈ w, isSpace c = false) :
    noTrailingSpace (Join ws " ".toList) := by
  induction ws with
  | nil =>
    intro t c hj
    exact absurd hj (by simp [Join])
  | cons a rest ih =>
    have ha := h a (by simp)
    cases rest with
    | nil =>
      intro t c hj
      have hj2 : a = t ++ [c] := hj
      exact ha.2 c (by simp [hj2])
    | cons b rest =>
      have ih2 := ih (fun w hw => h w (List.mem_cons_of_mem _ hw))
      have hb := h b (by simp)
      intro t c hj
      rw [Join_cons_cons] at hj
      rcases List.eq_nil_or_concat (Join (b :: rest) " ".toList) with hnil | ⟨L, y, hL⟩
      · exact absurd hnil (Join_ne_nil b rest _ hb.1)
      · rw [List.concat_eq_append] at hL
        rw [hL, ← List.append_assoc] at hj
        have hcy := (List.append_inj_right' hj rfl)
        simp only [List.cons.injEq, and_true] at hcy
        rw [← hcy]
        exact ih2 L y hL

/-! ## The normal form -/

theorem Fields_normalForm (e : GoString) : Fields (normalForm e) = Fields e :=
  Fields_Join (Fields e) (mem_Fields e)

theorem TrimSpace_normalForm (e : GoString) : TrimSpace (normalForm e) = normalForm e :=
  TrimSpace_eq_self_of_trimmed _ (noLeadingSpace_Join _ (mem_Fields e))
    (noTrailingSpace_Join _ (mem_Fields e))

theorem normalForm_eq_TrimSpace (e : GoString) (h : ∀ c ∈ TrimSpace e, isSpace c = false) :
    normalForm e = TrimSpace e := by
  unfold normalForm
  rw [← Fields_TrimSpace e, Fields_of_no_space _ h]
  split
  · rename_i hnil
    rw [hnil]; rfl
  · rfl

theorem normalForm_eq_TrimSpace_of_no_space (e : GoString)
    (h : ∀ c ∈ normalForm e, isSpace c = false) : normalForm e = TrimSpace e := by
  apply normalForm_eq_TrimSpace
  intro c hc
  cases hsp : isSpace c with
  | false => rfl
  | true =>
    have h2 := two_le_length_Fields (TrimSpace e) (noLeadingSpace_TrimSpace e)
      (noTrailingSpace_TrimSpace e) c hc hsp
    rw [Fields_TrimSpace] at h2
    have := h ' ' (space_mem_Join (Fields e) h2)
    exact absurd this (by decide)

/-! ## Keywords and lower-casing -/

theorem isSpace_toLowerRune (tbl : Char → Char) (c : Char)
    (htbl : ∀ c, isSpace c = true → isSpace (tbl c) = true) (hc : isSpace c = true) :
    isSpace (toLowerRune tbl c) = true := by
  unfold toLowerRune
  split
  · split
    · rename_i hup
      have hc2 := hc
      simp only [isSpace, Bool.or_eq_true, Bool.and_eq_true, beq_iff_eq, decide_eq_true_eq]
        at hc2
      omega
    · exact hc
  · exact htbl c hc

theorem no_space_of_mem_specialStrings (k : GoString) (hk : k ∈ specialStrings) :
    ∀ c ∈ k, isSpace c = false := by
  revert k
  decide

theorem no_space_of_ToLower_mem (tbl : Char → Char) (x : GoString)
    (htbl : ∀ c, isSpace c = true → isSpace (tbl c) = true)
    (hk : ToLower tbl x ∈ specialStrings) : ∀ c ∈ x, isSpace c = false := by
  intro c hc
  cases hsp : isSpace c with
  | false => rfl
  | true =>
    have hm : toLowerRune tbl c ∈ ToLower tbl x := List.mem_map_of_mem _ hc
    have h1 := no_space_of_mem_specialStrings _ hk _ hm
    rw [isSpace_toLowerRune tbl c htbl hsp] at h1
    exact Bool.noConfusion h1

theorem lookup_of_not_mem_specialStrings (x : GoString) (h : x ∉ specialStrings) :
    specialDescriptions.lookup x = none := by
  rw [List.lookup_eq_none_iff]
  intro p hp
  simp only [specialDescriptions, List.mem_cons, List.mem_singleton, List.not_mem_nil,
    or_false] at hp
  simp only [specialStrings, List.mem_cons, List.mem_singleton, List.not_mem_nil, or_false,
    not_or] at h
  obtain ⟨h1, h2, h3, h4, h5, h6, h7, h8⟩ := h
  rcases hp with rfl | rfl | rfl | rfl | rfl | rfl | rfl | rfl <;> simpa using (by assumption)

theorem lookup_of_mem_specialStrings (x : GoString) (h : x ∈ specialStrings) :
    ∃ d, specialDescriptions.lookup x = some d ∧ ∃ rest, d = 'O' :: rest := by
  simp only [specialStrings, List.mem_cons, List.mem_singleton, List.not_mem_nil, or_false] at h
  rcases h with rfl | rfl | rfl | rfl | rfl | rfl | rfl | rfl
  all_goals exact ⟨_, rfl, _, rfl⟩

theorem validateCronExpression_TrimSpace (tbl : Char → Char) (x : GoString) :
    ValidateCronExpression tbl (TrimSpace x) = ValidateCronExpression tbl x := by
  unfold ValidateCronExpression
  rw [TrimSpace_idem, Fields_TrimSpace]

theorem describeCronExpression_unfold (tbl : Char → Char) (x : GoString) :
    DescribeCronExpression tbl x =
      match specialDescriptions.lookup (ToLower tbl (TrimSpace x)) with
      | some desc => desc
      | none =>
        match ValidateCronExpression tbl x with
        | some err => "Invalid cron expression: ".toList ++ err
        | none =>
          match Fields x with
          | [f0, f1, f2, f3, f4] =>
            if (describeParts f0 f1 f2 f3 f4).length = 0 then "Every minute".toList
            else Join (describeParts f0 f1 f2 f3 f4) ", ".toList
          | _ => "Invalid cron expression format".toList := by
  unfold DescribeCronExpression
  simp only [validateCronExpression_TrimSpace, Fields_TrimSpace]

theorem fields_of_validate_none (tbl : Char → Char) (x : GoString)
    (hk : ToLower tbl (TrimSpace x) ∉ specialStrings)
    (hv : ValidateCronExpression tbl x = none) :
    ∃ f0 f1 f2 f3 f4, Fields x = [f0, f1, f2, f3, f4] := by
  unfold ValidateCronExpression at hv
  simp only [hk, if_false] at hv
  split at hv
  · rename_i f0 f1 f2 f3 f4 hf
    exact ⟨f0, f1, f2, f3, f4, hf⟩
  · exact absurd hv (Option.some_ne_none _)

theorem validate_none_of_keyword (tbl : Char → Char) (x : GoString)
    (hk : ToLower tbl (TrimSpace x) ∈ specialStrings) :
    ValidateCronExpression tbl x = none := by
  unfold ValidateCronExpression
  simp only [hk, if_true]

/-! ## The clauses of a description -/

theorem describeParts_eq (f0 f1 f2 f3 f4 : GoString) :
    describeParts f0 f1 f2 f3 f4 =
      (if f0 ≠ "*".toList then ["at minute ".toList ++ describeField f0] else []) ++
      ((if f1 ≠ "*".toList then ["hour ".toList ++ describeField f1] else []) ++
      ((if f2 ≠ "*".toList then ["on day ".toList ++ describeField f2] else []) ++
      ((if f3 ≠ "*".toList then ["in month ".toList ++ describeField f3] else []) ++
      (if f4 ≠ "*".toList then ["on weekday ".toList ++ describeField f4] else [])))) := by
  unfold describeParts
  by_cases h0 : f0 = "*".toList <;> by_cases h1 : f1 = "*".toList <;>
    by_cases h2 : f2 = "*".toList <;> by_cases h3 : f3 = "*".toList <;>
    by_cases h4 : f4 = "*".toList <;>
    simp only [h0, h1, h2, h3, h4, ne_eq, not_true_eq_false, not_false_eq_true, if_true,
      if_false, List.nil_append, List.append_nil, List.cons_append]

theorem eq_of_mem_ite_singleton (c : Prop) [Decidable c] (a p : GoString)
    (h : p ∈ (if c then [a] else [])) : p = a := by
  split at h
  · simpa using h
  · simp at h

theorem describeParts_head (f0 f1 f2 f3 f4 p : GoString)
    (hp : p ∈ describeParts f0 f1 f2 f3 f4) : ∃ c rest, p = c :: rest ∧ c ≠ 'I' := by
  rw [describeParts_eq] at hp
  simp only [List.mem_append] at hp
  rcases hp with h | h | h | h | h
  · exact ⟨'a', _, eq_of_mem_ite_singleton _ _ _ h, by decide⟩
  · exact ⟨'h', _, eq_of_mem_ite_singleton _ _ _ h, by decide⟩
  · exact ⟨'o', _, eq_of_mem_ite_singleton _ _ _ h, by decide⟩
  · exact ⟨'i', _, eq_of_mem_ite_singleton _ _ _ h, by decide⟩
  · exact ⟨'o', _, eq_of_mem_ite_singleton _ _ _ h, by decide⟩

theorem describe_valid_head (tbl : Char → Char) (x : GoString)
    (hv : ValidateCronExpression tbl x = none) :
    ∃ c rest, DescribeCronExpression tbl x = c :: rest ∧ c ≠ 'I' := by
  rw [describeCronExpression_unfold]
  by_cases hk : ToLower tbl (TrimSpace x) ∈ specialStrings
  · obtain ⟨d, hd, rest, hrest⟩ := lookup_of_mem_specialStrings _ hk
    rw [hd, hrest]
    exact ⟨'O', rest, rfl, by decide⟩
  · obtain ⟨f0, f1, f2, f3, f4, hf⟩ := fields_of_validate_none tbl x hk hv
    rw [lookup_of_not_mem_specialStrings _ hk, hv, hf]
    simp only
    split
    · exact ⟨'E', _, rfl, by decide⟩
    · rename_i hlen
      cases hparts : describeParts f0 f1 f2 f3 f4 with
      | nil => rw [hparts] at hlen; exact absurd rfl hlen
      | cons a rest =>
        obtain ⟨c, r, hc, hne⟩ := describeParts_head f0 f1 f2 f3 f4 a (by simp [hparts])
        obtain ⟨X, hX⟩ := Join_cons_prefix a rest ", ".toList
        rw [hX, hc]
        exact ⟨c, r ++ X, rfl, hne⟩

theorem describe_of_validate_error (tbl : Char → Char) (x err : GoString)
    (hv : ValidateCronExpression tbl x = some err) :
    DescribeCronExpression tbl x = "Invalid cron expression: ".toList ++ err := by
  have hk : ToLower tbl (TrimSpace x) ∉ specialStrings := by
    intro hk
    rw [validate_none_of_keyword tbl x hk] at hv
    exact absurd hv (by simp)
  rw [describeCronExpression_unfold, lookup_of_not_mem_specialStrings _ hk, hv]

theorem describeParts_spec (f0 f1 f2 f3 f4 : GoString) :
    (if (describeParts f0 f1 f2 f3 f4).length = 0 then "Every minute".toList
      else Join (describeParts f0 f1 f2 f3 f4) ", ".toList) =
      describeSpec [f0, f1, f2, f3, f4] := by
  rw [describeParts_eq]
  unfold describeSpec clauseLabels
  simp only [star_toList]
  by_cases h0 : f0 = ['*'] <;> by_cases h1 : f1 = ['*'] <;>
    by_cases h2 : f2 = ['*'] <;> by_cases h3 : f3 = ['*'] <;>
    by_cases h4 : f4 = ['*'] <;>
    simp [h0, h1, h2, h3, h4, clauseSpec, describeField, List.zip, List.zipWith, List.filter]

theorem lower_normalForm_eq (tbl : Char → Char) (e : GoString)
    (htbl : ∀ c, isSpace c = true → isSpace (tbl c) = true)
    (h : ToLower tbl (TrimSpace e) ∈ specialStrings ∨
      ToLower tbl (TrimSpace (normalForm e)) ∈ specialStrings) :
    TrimSpace (normalForm e) = TrimSpace e := by
  rw [TrimSpace_normalForm] at h ⊢
  rcases h with h | h
  · exact normalForm_eq_TrimSpace e (no_space_of_ToLower_mem tbl _ htbl h)
  · exact normalForm_eq_TrimSpace_of_no_space e (no_space_of_ToLower_mem tbl _ htbl h)

theorem validate_normalForm (tbl : Char → Char) (e : GoString)
    (htbl : ∀ c, isSpace c = true → isSpace (tbl c) = true) :
    ValidateCronExpression tbl (normalForm e) = ValidateCronExpression tbl e := by
  by_cases h : ToLower tbl (TrimSpace e) ∈ specialStrings ∨
      ToLower tbl (TrimSpace (normalForm e)) ∈ specialStrings
  · have heq := lower_normalForm_eq tbl e htbl h
    unfold ValidateCronExpression
    rw [heq, Fields_normalForm]
  · simp only [not_or] at h
    unfold ValidateCronExpression
    simp only [h.1, h.2, if_false, Fields_normalForm]

theorem describe_normalForm (tbl : Char → Char) (e : GoString)
    (htbl : ∀ c, isSpace c = true → isSpace (tbl c) = true) :
    DescribeCronExpression tbl (normalForm e) = DescribeCronExpression tbl e := by
  rw [describeCronExpression_unfold, describeCronExpression_unfold,
    validate_normalForm tbl e htbl, Fields_normalForm]
  by_cases h : ToLower tbl (TrimSpace e) ∈ specialStrings ∨
      ToLower tbl (TrimSpace (normalForm e)) ∈ specialStrings
  · rw [lower_normalForm_eq tbl e htbl h]
  · simp only [not_or] at h
    rw [lookup_of_not_mem_specialStrings _ h.1, lookup_of_not_mem_specialStrings _ h.2]

/-! ## Ranges whose text has a negative end or a start beyond `int` -/

theorem validateRange_text_negative_end (start endVal min max : Int) (fieldName : GoString)
    (he : endVal < 0) :
    validateRange (Itoa start ++ "-".toList ++ Itoa endVal) min max fieldName =
      some ("invalid range syntax: ".toList ++ (Itoa start ++ "-".toList ++ Itoa endVal)) := by
  have hend : Itoa endVal = '-' :: formatNat endVal.natAbs := by
    unfold Itoa
    rw [if_pos he]
  have htxt : Itoa start ++ "-".toList ++ Itoa endVal =
      Itoa start ++ '-' :: '-' :: formatNat endVal.natAbs := by
    rw [hend, List.append_assoc]; rfl
  have hcount : 2 ≤ (Itoa start ++ "-".toList ++ Itoa endVal).count '-' := by
    rw [htxt, List.count_append, List.count_cons_self, List.count_cons_self]
    omega
  unfold validateRange
  split
  · rename_i p0 p1 hsplit
    obtain ⟨hf, h0, h1⟩ := (Split_eq_pair_iff _ p0 p1 '-').mp hsplit
    rw [hf, List.count_append, List.count_cons_self, List.count_eq_zero.mpr h0,
      List.count_eq_zero.mpr h1] at hcount
    omega
  · rfl

theorem validateRange_text_start_beyond_int (start endVal min max : Int)
    (fieldName : GoString) (hs : 0 ≤ start) (he : 0 ≤ endVal) (hbig : ¬ isInt start) :
    validateRange (Itoa start ++ "-".toList ++ Itoa endVal) min max fieldName =
      some ("invalid range start: ".toList ++ Itoa start) := by
  have htxt : Itoa start ++ "-".toList ++ Itoa endVal = Itoa start ++ '-' :: Itoa endVal := by
    rw [List.append_assoc]; rfl
  rw [htxt]
  unfold validateRange
  rw [Split_Itoa_range _ _ hs he]
  simp only [Atoi_TrimSpace_Itoa, hbig, if_false]

/-! ## The loop over the five fields -/

theorem runValidators_first_failure (vs : List FieldValidator) (i : Nat) (v : FieldValidator)
    (err : GoString) (hv : vs[i]? = some v)
    (hpre : ∀ j w, j < i → vs[j]? = some w → validateField w.field w.min w.max w.name = none)
    (herr : validateField v.field v.min v.max v.name = some err) :
    runValidators vs =
      some ("field ".toList ++ Itoa ((v.position : Int) + 1) ++ " (".toList ++ v.name ++
        "): ".toList ++ err) := by
  induction vs generalizing i with
  | nil => simp at hv
  | cons w ws ih =>
    cases i with
    | zero =>
      simp only [List.getElem?_cons_zero, Option.some.injEq] at hv
      subst hv
      simp only [runValidators, herr]
    | succ k =>
      have hw : validateField w.field w.min w.max w.name = none :=
        hpre 0 w (Nat.succ_pos k) (by simp)
      simp only [List.getElem?_cons_succ] at hv
      simp only [runValidators, hw]
      exact ih k hv (fun j u hj hu => hpre (j + 1) u (Nat.succ_lt_succ hj) (by simpa using hu))

theorem validators_getElem?_position (f0 f1 f2 f3 f4 : GoString) (i : Nat) (v : FieldValidator)
    (hv : (validators f0 f1 f2 f3 f4)[i]? = some v) : v.position = i := by
  unfold validators at hv
  match i, hv with
  | 0, hv => simp at hv; subst hv; rfl
  | 1, hv => simp at hv; subst hv; rfl
  | 2, hv => simp at hv; subst hv; rfl
  | 3, hv => simp at hv; subst hv; rfl
  | 4, hv => simp at hv; subst hv; rfl
  | _ + 5, hv => simp at hv

theorem validators_take (f0 f1 f2 f3 f4 g0 g1 g2 g3 g4 : GoString) (n : Nat)
    (h : [g0, g1, g2, g3, g4].take n = [f0, f1, f2, f3, f4].take n) :
    (validators g0 g1 g2 g3 g4).take n = (validators f0 f1 f2 f3 f4).take n := by
  have key : ∀ a0 a1 a2 a3 a4 : GoString, validators a0 a1 a2 a3 a4 =
      List.zipWith (fun (d : GoString × Int × Int × Nat) (f : GoString) =>
          (⟨d.1, d.2.1, d.2.2.1, f, d.2.2.2⟩ : FieldValidator))
        [("minute".toList, 0, 59, 0), ("hour".toList, 0, 23, 1), ("day".toList, 1, 31, 2),
         ("month".toList, 1, 12, 3), ("weekday".toList, 0, 7, 4)] [a0, a1, a2, a3, a4] :=
    fun _ _ _ _ _ => rfl
  rw [key, key, List.take_zipWith, List.take_zipWith, h]

theorem validateCronExpression_of_fields (tbl : Char → Char) (e f0 f1 f2 f3 f4 : GoString)
    (hk : ToLower tbl (TrimSpace e) ∉ specialStrings)
    (hf : Fields e = [f0, f1, f2, f3, f4]) :
    ValidateCronExpression tbl e = runValidators (validators f0 f1 f2 f3 f4) := by
  unfold ValidateCronExpression
  simp only [hk, if_false, hf]

/-! ## The expression validator: acceptance, fail-fast order, field count -/

/-- C1: `ValidateCronExpression` succeeds exactly when the trimmed, lower-cased input is
one of the eight keywords, or the input splits on white space into exactly five fields
and `validateField` accepts each of them against the domain of its position (minute
0-59, hour 0-23, day 1-31, month 1-12, weekday 0-7). -/
theorem validateCronExpression_eq_nil_iff (tbl : Char → Char) (e : GoString) :
    ValidateCronExpression tbl e = none ↔
      (ToLower tbl (TrimSpace e) ∈
          ["@yearly".toList, "@annually".toList, "@monthly".toList, "@weekly".toList,
           "@daily".toList, "@midnight".toList, "@hourly".toList, "@reboot".toList] ∨
        ∃ f0 f1 f2 f3 f4, Fields e = [f0, f1, f2, f3, f4] ∧
          validateField f0 0 59 "minute".toList = none ∧
          validateField f1 0 23 "hour".toList = none ∧
          validateField f2 1 31 "day".toList = none ∧
          validateField f3 1 12 "month".toList = none ∧
          validateField f4 0 7 "weekday".toList = none) := by
  unfold ValidateCronExpression
  by_cases hk : ToLower tbl (TrimSpace e) ∈ specialStrings
  · simp only [hk, if_true, true_iff]
    exact Or.inl hk
  · have hk' : ¬ ToLower tbl (TrimSpace e) ∈
          ["@yearly".toList, "@annually".toList, "@monthly".toList, "@weekly".toList,
           "@daily".toList, "@midnight".toList, "@hourly".toList, "@reboot".toList] := hk
    simp only [hk, hk', if_false, false_or]
    split
    · rename_i f0 f1 f2 f3 f4 hf
      constructor
      · intro h
        refine ⟨f0, f1, f2, f3, f4, hf, ?_⟩
        simp only [validators, runValidators] at h
        repeat' split at h
        all_goals first
          | (refine ⟨?_, ?_, ?_, ?_, ?_⟩ <;> assumption)
          | exact absurd h (Option.some_ne_none _)
      · rintro ⟨g0, g1, g2, g3, g4, hg, h0, h1, h2, h3, h4⟩
        rw [hf] at hg
        simp only [List.cons.injEq, and_true] at hg
        obtain ⟨rfl, rfl, rfl, rfl, rfl⟩ := hg
        simp only [validators, runValidators, h0, h1, h2, h3, h4]
    · rename_i hne
      constructor
      · intro h
        exact absurd h (Option.some_ne_none _)
      · rintro ⟨g0, g1, g2, g3, g4, hg, -⟩
        exact absurd hg (hne g0 g1 g2 g3 g4)

/-- C2: fail-fast, left to right. For a non-keyword expression with exactly five fields,
when entry `i` of the table of validators is the first one whose field `validateField`
rejects, with error `err`, the result is `err` wrapped as
`field <i+1> (<name>): <err>`; and every other non-keyword expression with five fields
that has the same fields up to and including `i` gives the same result. -/
theorem validateCronExpression_first_failure (tbl : Char → Char)
    (e f0 f1 f2 f3 f4 : GoString) (i : Nat) (v : FieldValidator) (err : GoString)
    (hk : ToLower tbl (TrimSpace e) ∉ specialStrings)
    (hf : Fields e = [f0, f1, f2, f3, f4])
    (hv : (validators f0 f1 f2 f3 f4)[i]? = some v)
    (hpre : ∀ j w, j < i → (validators f0 f1 f2 f3 f4)[j]? = some w →
      validateField w.field w.min w.max w.name = none)
    (herr : validateField v.field v.min v.max v.name = some err) :
    ValidateCronExpression tbl e =
        some ("field ".toList ++ Itoa ((i : Int) + 1) ++ " (".toList ++ v.name ++
          "): ".toList ++ err) ∧
      ∀ e2 g0 g1 g2 g3 g4, ToLower tbl (TrimSpace e2) ∉ specialStrings →
        Fields e2 = [g0, g1, g2, g3, g4] →
        [g0, g1, g2, g3, g4].take (i + 1) = [f0, f1, f2, f3, f4].take (i + 1) →
        ValidateCronExpression tbl e2 = ValidateCronExpression tbl e := by
  have hpos := validators_getElem?_position f0 f1 f2 f3 f4 i v hv
  have main : ValidateCronExpression tbl e =
        some ("field ".toList ++ Itoa ((i : Int) + 1) ++ " (".toList ++ v.name ++
          "): ".toList ++ err) := by
    rw [validateCronExpression_of_fields tbl e f0 f1 f2 f3 f4 hk hf,
      runValidators_first_failure _ i v err hv hpre herr, hpos]
  refine ⟨main, ?_⟩
  intro e2 g0 g1 g2 g3 g4 hk2 hf2 htake
  have ht := validators_take f0 f1 f2 f3 f4 g0 g1 g2 g3 g4 (i + 1) htake
  have hget : ∀ j, j < i + 1 →
      (validators g0 g1 g2 g3 g4)[j]? = (validators f0 f1 f2 f3 f4)[j]? := by
    intro j hj
    rw [← List.getElem?_take_of_lt hj, ht, List.getElem?_take_of_lt hj]
  rw [main, validateCronExpression_of_fields tbl e2 g0 g1 g2 g3 g4 hk2 hf2,
    runValidators_first_failure _ i v err ((hget i (Nat.lt_succ_self i)).trans hv)
      (fun j w hj hw => hpre j w hj ((hget j (Nat.lt_succ_of_lt hj)).symm.trans hw)) herr, hpos]

/-- C2 at the inputs `a b c d e` and `60 * * * *`: both fail on field 1 (minute). -/
theorem validateCronExpression_first_failure_witness :
    ValidateCronExpression id "a b c d e".toList =
        some "field 1 (minute): invalid value: a".toList ∧
      ValidateCronExpression id "60 * * * *".toList =
        some "field 1 (minute): value 60 out of bounds [0-59]".toList :=
  ⟨(validateCronExpression_first_failure id "a b c d e".toList "a".toList "b".toList
      "c".toList "d".toList "e".toList 0 ⟨"minute".toList, 0, 59, "a".toList, 0⟩
      "invalid value: a".toList (by decide) (by decide) (by decide)
      (fun j _ hj => absurd hj (Nat.not_lt_zero j)) (by decide)).1,
   (validateCronExpression_first_failure id "60 * * * *".toList "60".toList "*".toList
      "*".toList "*".toList "*".toList 0 ⟨"minute".toList, 0, 59, "60".toList, 0⟩
      "value 60 out of bounds [0-59]".toList (by decide) (by decide) (by decide)
      (fun j _ hj => absurd hj (Nat.not_lt_zero j)) (by decide)).1⟩

/-- C3: an input that is not a keyword and whose white-space split has `n` fields with
`n ≠ 5` (the empty input included, `n = 0`) fails with the field-count error reporting
`n`, whatever the fields contain. -/
theorem validateCronExpression_field_count (tbl : Char → Char) (e : GoString)
    (hk : ToLower tbl (TrimSpace e) ∉ specialStrings)
    (hn : (Fields e).length ≠ 5) :
    ValidateCronExpression tbl e =
      some ("cron expression must have exactly 5 fields (minute hour day month weekday), got ".toList
        ++ Itoa ((Fields e).length : Int)) := by
  unfold ValidateCronExpression
  simp only [hk, if_false]
  split
  · rename_i f0 f1 f2 f3 f4 hf
    rw [hf] at hn
    exact absurd rfl hn
  · rfl

/-- C3 at the empty input and at an input of six fields. -/
theorem validateCronExpression_field_count_witness :
    ValidateCronExpression id "".toList =
        some ("cron expression must have exactly 5 fields (minute hour day month weekday), " ++
          "got 0").toList ∧
      ValidateCronExpression id "* * * * * *".toList =
        some ("cron expression must have exactly 5 fields (minute hour day month weekday), " ++
          "got 6").toList :=
  ⟨validateCronExpression_field_count id "".toList (by decide) (by decide),
   validateCronExpression_field_count id "* * * * * *".toList (by decide) (by decide)⟩

/-! ## Single values and ranges -/

/-- C4: the bounds checker. For the decimal text of any integer `v`, bounds `min` and
`max` of type `int` and any field name, `validateSingleValue` accepts exactly when
`min <= v <= max`, or the name is `weekday` and `v = 7`; a rejected value that parses
gets the out-of-bounds error carrying `v`, `min` and `max`; and for each of the five
field domains the accepted integers are exactly those in `[min,max]` (for weekday this
range already contains 7). -/
theorem validateSingleValue_Itoa (v min max : Int) (fieldName : GoString)
    (hmin : isInt min) (hmax : isInt max) :
    (validateSingleValue (Itoa v) min max fieldName = none ↔
        (min ≤ v ∧ v ≤ max) ∨ (fieldName = "weekday".toList ∧ v = 7)) ∧
      (isInt v → validateSingleValue (Itoa v) min max fieldName ≠ none →
        validateSingleValue (Itoa v) min max fieldName =
          some ("value ".toList ++ Itoa v ++ " out of bounds [".toList ++ Itoa min ++
            "-".toList ++ Itoa max ++ "]".toList)) ∧
      (∀ f0 f1 f2 f3 f4, ∀ d ∈ validators f0 f1 f2 f3 f4,
        (validateSingleValue (Itoa v) d.min d.max d.name = none ↔ d.min ≤ v ∧ v ≤ d.max)) := by
  have key : ∀ (lo hi : Int) (nm : GoString), isInt lo → isInt hi →
      (validateSingleValue (Itoa v) lo hi nm = none ↔
        (lo ≤ v ∧ v ≤ hi) ∨ (nm = "weekday".toList ∧ v = 7)) := by
    intro lo hi nm hlo hhi
    unfold validateSingleValue
    rw [Atoi_TrimSpace_Itoa]
    by_cases hv : isInt v
    · simp only [hv, if_true]
      by_cases hw : nm = "weekday".toList ∧ v = 7
      · simp only [hw, and_self, if_true, or_true]
      · simp only [hw, if_false, or_false]
        by_cases hb : v < lo ∨ v > hi
        · simp only [hb, if_true, reduceCtorEq, false_iff]
          omega
        · simp only [hb, if_false, true_iff]
          omega
    · simp only [hv, if_false, reduceCtorEq, false_iff]
      unfold isInt at hv hlo hhi
      omega
  refine ⟨key min max fieldName hmin hmax, ?_, ?_⟩
  · intro hv hne
    unfold validateSingleValue at hne ⊢
    rw [Atoi_TrimSpace_Itoa] at hne ⊢
    simp only [hv, if_true] at hne ⊢
    split
    · rename_i hw
      rw [if_pos hw] at hne
      exact absurd rfl hne
    · rename_i hw
      rw [if_neg hw] at hne
      split
      · rfl
      · rename_i hb
        rw [if_neg hb] at hne
        exact absurd rfl hne
  · intro f0 f1 f2 f3 f4 d hd
    simp only [validators, List.mem_cons, List.mem_singleton, List.not_mem_nil, or_false] at hd
    rcases hd with rfl | rfl | rfl | rfl | rfl
    all_goals
      simp only []
      rw [key _ _ _ (by unfold isInt; omega) (by unfold isInt; omega)]
      constructor
      · rintro (h | ⟨-, h⟩)
        · exact h
        · omega
      · exact Or.inl

/-- C4 at the weekday domain given narrower bounds: `7` is accepted through the alias,
`8` is rejected with the out-of-bounds error. -/
theorem validateSingleValue_Itoa_witness :
    validateSingleValue (Itoa 7) 0 6 "weekday".toList = none ∧
      validateSingleValue (Itoa 8) 0 6 "weekday".toList =
        some "value 8 out of bounds [0-6]".toList :=
  ⟨(validateSingleValue_Itoa 7 0 6 "weekday".toList (by decide) (by decide)).1.2
      (Or.inr ⟨rfl, rfl⟩),
   (validateSingleValue_Itoa 8 0 6 "weekday".toList (by decide) (by decide)).2.1
      (by decide) (by decide)⟩

/-- C5: the range checker accepts the text `start-end` of two non-negative integers
exactly when `min <= start <= max`, `min <= end <= max` and `start <= end`, for a bound
`max` of type `int`. -/
theorem validateRange_Itoa (start endVal min max : Int) (fieldName : GoString)
    (hs : 0 ≤ start) (he : 0 ≤ endVal) (hmax : isInt max) :
    validateRange (Itoa start ++ "-".toList ++ Itoa endVal) min max fieldName = none ↔
      (min ≤ start ∧ start ≤ max) ∧ (min ≤ endVal ∧ endVal ≤ max) ∧ start ≤ endVal := by
  by_cases hi : isInt start ∧ isInt endVal
  · rw [validateRange_text_eq start endVal min max fieldName hs he hi.1 hi.2]
    split
    · simp only [reduceCtorEq, false_iff]; omega
    · split
      · simp only [reduceCtorEq, false_iff]; omega
      · split
        · simp only [reduceCtorEq, false_iff]; omega
        · simp only [true_iff]; omega
  · have hne := validateRange_text_not_int start endVal min max fieldName hs he hi
    simp only [hne, false_iff]
    intro hb
    apply hi
    unfold isInt at hmax ⊢
    omega

/-- C5 at `1-5` for the minute domain. -/
theorem validateRange_Itoa_witness :
    validateRange "1-5".toList 0 59 "minute".toList = none :=
  (validateRange_Itoa 1 5 0 59 "minute".toList (by decide) (by decide) (by decide)).2
    (by decide)

/-- C6, as the code has it: for every pair of integers `start > end`, written
`start-end`, `validateRange` fails, and the error is the one of the first check that
fails: the invalid-range-syntax error when `end` is negative (the text then has more
than one `-`); otherwise the invalid-range-start error when `start` does not fit the
type `int`; otherwise the out-of-bounds error of `start` when `start` lies outside
`[min,max]`; otherwise the out-of-bounds error of `end` when `end` lies outside; and the
error for the order of the bounds when both lie inside `[min,max]`. -/
theorem validateRange_start_gt_end (start endVal min max : Int) (fieldName : GoString)
    (hgt : start > endVal) :
    validateRange (Itoa start ++ "-".toList ++ Itoa endVal) min max fieldName ≠ none ∧
      (endVal < 0 →
        validateRange (Itoa start ++ "-".toList ++ Itoa endVal) min max fieldName =
          some ("invalid range syntax: ".toList ++
            (Itoa start ++ "-".toList ++ Itoa endVal))) ∧
      (0 ≤ endVal → 9223372036854775807 < start →
        validateRange (Itoa start ++ "-".toList ++ Itoa endVal) min max fieldName =
          some ("invalid range start: ".toList ++ Itoa start)) ∧
      (0 ≤ endVal → start ≤ 9223372036854775807 →
        (start < min ∨ start > max →
          validateRange (Itoa start ++ "-".toList ++ Itoa endVal) min max fieldName =
            some ("range start ".toList ++ Itoa start ++ " out of bounds [".toList ++
              Itoa min ++ "-".toList ++ Itoa max ++ "]".toList)) ∧
        (min ≤ start ∧ start ≤ max → endVal < min ∨ endVal > max →
          validateRange (Itoa start ++ "-".toList ++ Itoa endVal) min max fieldName =
            some ("range end ".toList ++ Itoa endVal ++ " out of bounds [".toList ++
              Itoa min ++ "-".toList ++ Itoa max ++ "]".toList)) ∧
        (min ≤ start ∧ start ≤ max → min ≤ endVal ∧ endVal ≤ max →
          validateRange (Itoa start ++ "-".toList ++ Itoa endVal) min max fieldName =
            some ("range start ".toList ++ Itoa start ++
              " cannot be greater than end ".toList ++ Itoa endVal))) := by
  have hint : 0 ≤ endVal → start ≤ 9223372036854775807 →
      validateRange (Itoa start ++ "-".toList ++ Itoa endVal) min max fieldName =
        if start < min ∨ start > max then
          some ("range start ".toList ++ Itoa start ++ " out of bounds [".toList ++ Itoa min ++
            "-".toList ++ Itoa max ++ "]".toList)
        else if endVal < min ∨ endVal > max then
          some ("range end ".toList ++ Itoa endVal ++ " out of bounds [".toList ++ Itoa min ++
            "-".toList ++ Itoa max ++ "]".toList)
        else
          some ("range start ".toList ++ Itoa start ++ " cannot be greater than end ".toList ++
            Itoa endVal) := by
    intro he hs
    rw [validateRange_text_eq start endVal min max fieldName (by omega) he
      (by unfold isInt; omega) (by unfold isInt; omega), if_pos hgt]
  refine ⟨?_, ?_, ?_, ?_⟩
  · by_cases he : endVal < 0
    · rw [validateRange_text_negative_end start endVal min max fieldName he]
      exact Option.some_ne_none _
    · by_cases hs : start ≤ 9223372036854775807
      · rw [hint (by omega) hs]
        split
        · exact Option.some_ne_none _
        · split <;> exact Option.some_ne_none _
      · rw [validateRange_text_start_beyond_int start endVal min max fieldName (by omega)
          (by omega) (by unfold isInt; omega)]
        exact Option.some_ne_none _
  · exact validateRange_text_negative_end start endVal min max fieldName
  · intro he hs
    exact validateRange_text_start_beyond_int start endVal min max fieldName (by omega) he
      (by unfold isInt; omega)
  · intro he hs
    rw [hint he hs]
    refine ⟨?_, ?_, ?_⟩
    · intro h1
      rw [if_pos h1]
    · intro h1 h2
      rw [if_neg (by omega), if_pos h2]
    · intro h1 h2
      rw [if_neg (by omega), if_neg (by omega)]

/-- C6 as stated fails: each of `10-5` with bounds `[0,7]`, `5--3` and
`9223372036854775808-5` with bounds `[0,59]` has `start > end`, yet the error is the
out-of-bounds error of `start`, the invalid-range-syntax error and the
invalid-range-start error, not the error for the order of the bounds. -/
theorem validateRange_order_error_counterexample :
    ((10 : Int) > 5 ∧
        validateRange (Itoa 10 ++ "-".toList ++ Itoa 5) 0 7 "weekday".toList =
          some "range start 10 out of bounds [0-7]".toList ∧
        validateRange (Itoa 10 ++ "-".toList ++ Itoa 5) 0 7 "weekday".toList ≠
          some ("range start ".toList ++ Itoa 10 ++ " cannot be greater than end ".toList ++
            Itoa 5)) ∧
      ((5 : Int) > -3 ∧
        validateRange (Itoa 5 ++ "-".toList ++ Itoa (-3)) 0 59 "minute".toList =
          some "invalid range syntax: 5--3".toList) ∧
      ((9223372036854775808 : Int) > 5 ∧
        validateRange (Itoa 9223372036854775808 ++ "-".toList ++ Itoa 5) 0 59
            "minute".toList =
          some "invalid range start: 9223372036854775808".toList) := by
  decide

/-- C6 at `5-1` for the minute domain (the error for the order of the bounds) and at
`5--3` (the invalid-range-syntax error). -/
theorem validateRange_start_gt_end_witness :
    validateRange "5-1".toList 0 59 "minute".toList =
        some "range start 5 cannot be greater than end 1".toList ∧
      validateRange "5--3".toList 0 59 "minute".toList =
        some "invalid range syntax: 5--3".toList :=
  ⟨((validateRange_start_gt_end 5 1 0 59 "minute".toList (by decide)).2.2.2 (by decide)
      (by decide)).2.2 (by decide) (by decide),
   by
    have h := (validateRange_start_gt_end 5 (-3) 0 59 "minute".toList (by decide)).2.1
      (by decide)
    have ht : Itoa 5 ++ "-".toList ++ Itoa (-3) = "5--3".toList := by decide
    rw [ht] at h
    exact h⟩

/-! ## Steps -/

/-- C7, as the code has it: the stepped wildcard. For every positive integer `n` and
every field domain, `validateField` accepts `*/n` exactly when `n` fits the type `int`
(`n <= 9223372036854775807`), whatever `min` and `max` are, and a larger `n` fails with
`invalid step value: n`; and a field `*/rest` fails with an invalid-step error when
`rest` does not parse as an integer (the empty `rest` included) and when it parses to an
integer `<= 0`. -/
theorem validateField_stepped_wildcard (min max : Int) (fieldName : GoString) :
    (∀ n : Int, 0 < n →
        (validateField ("*/".toList ++ Itoa n) min max fieldName = none ↔
          n ≤ 9223372036854775807)) ∧
      (∀ n : Int, 9223372036854775807 < n →
        validateField ("*/".toList ++ Itoa n) min max fieldName =
          some ("invalid step value: ".toList ++ Itoa n)) ∧
      (∀ rest, Atoi rest = none →
        validateField ("*/".toList ++ rest) min max fieldName =
          some ("invalid step value: ".toList ++ rest)) ∧
      (∀ rest k, Atoi rest = some k → k ≤ 0 →
        validateField ("*/".toList ++ rest) min max fieldName =
          some ("step value must be positive, got ".toList ++ Itoa k)) ∧
      validateField "*/".toList min max fieldName = some "invalid step value: ".toList := by
  refine ⟨?_, ?_, ?_, ?_, ?_⟩
  · intro n hn
    rw [validateField_starSlash, Atoi_Itoa]
    by_cases hi : isInt n
    · simp only [hi, if_true]
      rw [if_neg (by omega)]
      unfold isInt at hi
      simp only [true_iff]
      omega
    · simp only [hi, if_false, reduceCtorEq, false_iff]
      unfold isInt at hi
      omega
  · intro n hn
    have hi : ¬ isInt n := by unfold isInt; omega
    rw [validateField_starSlash, Atoi_Itoa]
    simp only [hi, if_false]
  · intro rest h
    rw [validateField_starSlash, h]
  · intro rest k h hk
    rw [validateField_starSlash, h]
    simp only [hk, if_true]
  · have h := validateField_starSlash [] min max fieldName
    simpa [Atoi] using h

/-- C7 as stated fails: `9223372036854775808` is a positive integer, yet
`*/9223372036854775808` is rejected, for the minute domain, with an invalid-step error. -/
theorem stepped_wildcard_beyond_int_counterexample :
    (0 : Int) < 9223372036854775808 ∧
      validateField ("*/".toList ++ Itoa 9223372036854775808) 0 59 "minute".toList =
        some "invalid step value: 9223372036854775808".toList ∧
      validateField "*/9223372036854775808".toList 0 59 "minute".toList ≠ none := by
  decide

/-- C7 at `*/15` for the weekday domain, whose maximum is below the step, at
`*/9223372036854775807`, the largest step accepted, and at `*/0`. -/
theorem validateField_stepped_wildcard_witness :
    validateField "*/15".toList 0 7 "weekday".toList = none ∧
      validateField "*/9223372036854775807".toList 0 7 "weekday".toList = none ∧
      validateField "*/0".toList 0 7 "weekday".toList =
        some "step value must be positive, got 0".toList :=
  ⟨((validateField_stepped_wildcard 0 7 "weekday".toList).1 15 (by decide)).2 (by decide),
   ((validateField_stepped_wildcard 0 7 "weekday".toList).1 9223372036854775807
      (by decide)).2 (by decide),
   (validateField_stepped_wildcard 0 7 "weekday".toList).2.2.2.1 "0".toList 0 (by decide)
      (by decide)⟩

/-- C8: the stepped range. A field that contains `/` and `-` and does not start with
`*/` is accepted exactly when it has exactly one `/`, `validateRange` accepts the part
before it, and the part after it parses as an integer `> 0`; the step is compared
neither with the range nor with the field domain. -/
theorem validateField_stepped_range (field : GoString) (min max : Int) (fieldName : GoString)
    (hslash : Contains field '/' = true) (hminus : Contains field '-' = true)
    (hpre : HasPrefix field "*/".toList = false) :
    validateField field min max fieldName = none ↔
      field.count '/' = 1 ∧
        ∃ a b, field = a ++ "/".toList ++ b ∧ validateRange a min max fieldName = none ∧
          ∃ k, Atoi b = some k ∧ 0 < k := by
  rw [validateField_of_slash_minus field min max fieldName hslash hminus hpre]
  constructor
  · intro h
    split at h
    · rename_i p0 p1 hsp
      obtain ⟨hf, ha, hb⟩ := (Split_eq_pair_iff field p0 p1 '/').mp hsp
      have hcount : field.count '/' = 1 := by
        rw [hf, List.count_append, List.count_cons_self, List.count_eq_zero.mpr ha,
          List.count_eq_zero.mpr hb]
      refine ⟨hcount, p0, p1, ?_, ?_⟩
      · rw [hf, List.append_assoc]; rfl
      · split at h
        · exact absurd h (Option.some_ne_none _)
        · rename_i hr
          refine ⟨hr, ?_⟩
          split at h
          · exact absurd h (Option.some_ne_none _)
          · rename_i step hstep
            refine ⟨step, hstep, ?_⟩
            by_contra hk
            rw [if_pos (by omega)] at h
            exact absurd h (Option.some_ne_none _)
    · exact absurd h (Option.some_ne_none _)
  · rintro ⟨hcount, a, b, hf, hr, k, hk, hpos⟩
    have hf2 : field = a ++ '/' :: b := by
      rw [hf, List.append_assoc]; rfl
    rw [hf2] at hcount
    obtain ⟨ha, hb⟩ := not_mem_of_count_slash a b '/' hcount
    have hsp : Split field '/' = [a, b] := (Split_eq_pair_iff field a b '/').mpr ⟨hf2, ha, hb⟩
    rw [hsp]
    simp only [hr, hk]
    rw [if_neg (by omega)]

/-- C8 at `1-5/2` and `1-5/100` for the minute field: both are accepted. -/
theorem validateField_stepped_range_witness :
    validateField "1-5/2".toList 0 59 "minute".toList = none ∧
      validateField "1-5/100".toList 0 59 "minute".toList = none :=
  ⟨(validateField_stepped_range "1-5/2".toList 0 59 "minute".toList (by decide) (by decide)
      (by decide)).2
      ⟨by decide, "1-5".toList, "2".toList, by decide, by decide, 2, by decide, by decide⟩,
   (validateField_stepped_range "1-5/100".toList 0 59 "minute".toList (by decide) (by decide)
      (by decide)).2
      ⟨by decide, "1-5".toList, "100".toList, by decide, by decide, 100, by decide, by decide⟩⟩

/-! ## Lists -/

/-- C9: the list form. A field that contains `,` and no `/` is accepted exactly when
every comma-separated element, after trimming, passes `validateRange` when it contains
`-` and `validateSingleValue` otherwise; when an element fails and all the elements
before it pass, the result is the error of that element, unwrapped, for this field and
for every other such field whose elements are the same up to and including it. -/
theorem validateField_list_form (field : GoString) (min max : Int) (fieldName : GoString)
    (hcomma : Contains field ',' = true) (hslash : Contains field '/' = false) :
    (validateField field min max fieldName = none ↔
        ∀ v ∈ Split field ',',
          (if Contains (TrimSpace v) '-' then validateRange (TrimSpace v) min max fieldName
            else validateSingleValue (TrimSpace v) min max fieldName) = none) ∧
      (∀ pre post v err, Split field ',' = pre ++ v :: post →
        (∀ u ∈ pre,
          (if Contains (TrimSpace u) '-' then validateRange (TrimSpace u) min max fieldName
            else validateSingleValue (TrimSpace u) min max fieldName) = none) →
        (if Contains (TrimSpace v) '-' then validateRange (TrimSpace v) min max fieldName
          else validateSingleValue (TrimSpace v) min max fieldName) = some err →
        validateField field min max fieldName = some err ∧
          ∀ field2 post2, Contains field2 ',' = true → Contains field2 '/' = false →
            Split field2 ',' = pre ++ v :: post2 →
            validateField field2 min max fieldName = some err) := by
  rw [validateField_of_comma_no_slash field min max fieldName hcomma hslash]
  refine ⟨validateList_eq_none_iff _ min max fieldName, ?_⟩
  intro pre post v err hsplit hpre hv
  refine ⟨?_, ?_⟩
  · rw [hsplit]
    exact validateList_first_failure pre post v err min max fieldName hpre hv
  · intro field2 post2 hc2 hs2 hsplit2
    rw [validateField_of_comma_no_slash field2 min max fieldName hc2 hs2, hsplit2]
    exact validateList_first_failure pre post2 v err min max fieldName hpre hv

/-- C9 at `1,x,99` for the minute field: the second element fails first and its error
is returned as it is. -/
theorem validateField_list_form_witness :
    validateField "1,x,99".toList 0 59 "minute".toList = some "invalid value: x".toList ∧
      validateField "1, 3-5 ,7".toList 0 59 "minute".toList = none :=
  ⟨((validateField_list_form "1,x,99".toList 0 59 "minute".toList (by decide) (by decide)).2
      ["1".toList] ["99".toList] "x".toList "invalid value: x".toList (by decide) (by decide)
      (by decide)).1,
   (validateField_list_form "1, 3-5 ,7".toList 0 59 "minute".toList (by decide) (by decide)).1.2
      (by decide)⟩

/-- C10: a list cannot contain a stepped or wildcard sub-term. For every field domain, a
field that contains `,` together with `/` or `*` is rejected by `validateField`. -/
theorem validateField_rejects_comma_with_step_or_wildcard (field : GoString) (min max : Int)
    (fieldName : GoString) (hcomma : Contains field ',' = true)
    (hx : Contains field '/' = true ∨ Contains field '*' = true) :
    validateField field min max fieldName ≠ none := by
  have hcm : ',' ∈ field := (Contains_iff _ _).mp hcomma
  cases hp : HasPrefix field "*/".toList with
  | true =>
    obtain ⟨rest, rfl⟩ := HasPrefix_starSlash field hp
    have hrest : ',' ∈ rest := by
      rcases List.mem_append.mp hcm with h | h
      · exact absurd h (by decide)
      · exact h
    rw [validateField_starSlash,
      Atoi_eq_none_of_mem rest ',' hrest (by decide) (by decide) (by decide)]
    exact Option.some_ne_none _
  | false =>
    cases hsm : (Contains field '/' && Contains field '-') with
    | true =>
      simp only [Bool.and_eq_true] at hsm
      rw [validateField_of_slash_minus field min max fieldName hsm.1 hsm.2 hp]
      split
      · rename_i p0 p1 hsplit
        obtain ⟨rfl, -, -⟩ := (Split_eq_pair_iff field p0 p1 '/').mp hsplit
        simp only [List.mem_append, List.mem_cons] at hcm
        rcases hcm with h | h | h
        · have hr := validateRange_ne_none_of_mem p0 ',' min max fieldName h (by decide)
            (by decide) (by decide) (by decide)
          split
          · exact Option.some_ne_none _
          · rename_i hok
            exact absurd hok hr
        · exact absurd h (by decide)
        · split
          · exact Option.some_ne_none _
          · rw [Atoi_eq_none_of_mem p1 ',' h (by decide) (by decide) (by decide)]
            exact Option.some_ne_none _
      · exact Option.some_ne_none _
    | false =>
      rw [validateField_of_comma field min max fieldName hcomma hp hsm]
      intro hnone
      rw [validateList_eq_none_iff] at hnone
      rcases hx with hx | hx
      · obtain ⟨w, hw, hxw⟩ := mem_Split_of_mem field ',' '/' ((Contains_iff _ _).mp hx)
          (by decide)
        exact validateListElem_ne_none_of_mem w '/' min max fieldName hxw (by decide)
          (by decide) (by decide) (by decide) (hnone w hw)
      · obtain ⟨w, hw, hxw⟩ := mem_Split_of_mem field ',' '*' ((Contains_iff _ _).mp hx)
          (by decide)
        exact validateListElem_ne_none_of_mem w '*' min max fieldName hxw (by decide)
          (by decide) (by decide) (by decide) (hnone w hw)

/-- C10 at the four fields `1,2/3`, `*/5,10`, `*,5` and `1-3,5/2` for the minute field. -/
theorem validateField_rejects_comma_with_step_or_wildcard_witness :
    validateField "1,2/3".toList 0 59 "minute".toList ≠ none ∧
      validateField "*/5,10".toList 0 59 "minute".toList ≠ none ∧
      validateField "*,5".toList 0 59 "minute".toList ≠ none ∧
      validateField "1-3,5/2".toList 0 59 "minute".toList ≠ none :=
  ⟨validateField_rejects_comma_with_step_or_wildcard "1,2/3".toList 0 59 "minute".toList (by decide)
      (Or.inl (by decide)),
   validateField_rejects_comma_with_step_or_wildcard "*/5,10".toList 0 59 "minute".toList (by decide)
      (Or.inl (by decide)),
   validateField_rejects_comma_with_step_or_wildcard "*,5".toList 0 59 "minute".toList (by decide)
      (Or.inr (by decide)),
   validateField_rejects_comma_with_step_or_wildcard "1-3,5/2".toList 0 59 "minute".toList (by decide)
      (Or.inl (by decide))⟩

/-! ## The weekday alias and ranges -/

/-- C11: the weekday alias does not apply inside ranges. The result of `validateRange`
is the same for every field name; with the name `weekday` a range one of whose bounds
parses to 7 is accepted only when `min <= 7 <= max`; and `validateSingleValue` with the
name `weekday` accepts `7` for every `min` and `max`. -/
theorem validateRange_no_weekday_alias (rangeStr p0 p1 : GoString) (min max : Int)
    (n1 n2 : GoString) :
    validateRange rangeStr min max n1 = validateRange rangeStr min max n2 ∧
      (validateRange rangeStr min max "weekday".toList = none →
        Split rangeStr '-' = [p0, p1] →
        Atoi (TrimSpace p0) = some 7 ∨ Atoi (TrimSpace p1) = some 7 →
        min ≤ 7 ∧ 7 ≤ max) ∧
      validateSingleValue "7".toList min max "weekday".toList = none := by
  refine ⟨rfl, ?_, ?_⟩
  · intro h hs h7
    unfold validateRange at h
    rw [hs] at h
    simp only at h
    split at h
    · exact absurd h (Option.some_ne_none _)
    · rename_i a ha
      split at h
      · exact absurd h (Option.some_ne_none _)
      · rename_i b hb
        rw [ha, hb] at h7
        simp only [Option.some.injEq] at h7
        split at h
        · exact absurd h (Option.some_ne_none _)
        · split at h
          · exact absurd h (Option.some_ne_none _)
          · rcases h7 with h7 | h7 <;> omega
  · have hp : Atoi (TrimSpace "7".toList) = some 7 := by decide
    unfold validateSingleValue
    rw [hp]
    simp

/-- C11 at the range `5-7` and the single value `7` with the name `weekday` and the
bounds `[0,6]`: the range is rejected, the single value accepted. -/
theorem validateRange_no_weekday_alias_witness :
    validateRange "5-7".toList 0 6 "weekday".toList ≠ none ∧
      validateSingleValue "7".toList 0 6 "weekday".toList = none :=
  ⟨fun h => absurd
      ((validateRange_no_weekday_alias "5-7".toList "5".toList "7".toList 0 6 [] []).2.1 h
        (by decide) (Or.inr (by decide))).2 (by decide),
   (validateRange_no_weekday_alias "5-7".toList "5".toList "7".toList 0 6 [] []).2.2⟩

/-- C17: at the top level the weekday branch never changes the outcome. For every
input `ValidateCronExpression` returns what the validator with the branch
`fieldName == "weekday" && value == 7` deleted returns, because the weekday field is
checked against `[0,7]`; and `7` is accepted in the weekday field as a single value, as
a list element and as a range bound. -/
theorem validateCronExpression_eq_noAlias (tbl : Char → Char) (e : GoString) :
    ValidateCronExpression tbl e = ValidateCronExpressionNoAlias tbl e ∧
      ValidateCronExpression tbl "0 0 * * 7".toList = none ∧
      ValidateCronExpression tbl "0 0 * * 0,7".toList = none ∧
      ValidateCronExpression tbl "0 0 * * 5-7".toList = none := by
  refine ⟨?_, rfl, rfl, rfl⟩
  unfold ValidateCronExpression ValidateCronExpressionNoAlias
  simp only
  split
  · rfl
  · split
    · exact runValidators_eq_noAlias _ _ _ _ _
    · rfl

/-- C18: a step is accepted only on a wildcard or on a range. For every field domain,
a field that contains `/`, does not start with `*/` and contains no `-` is rejected; so
an accepted field that contains `/` is `*/n` with `n` parsing to a positive integer, or
`r/n` with `r` accepted by `validateRange` and `n` parsing to a positive integer. -/
theorem validateField_step_shape (field : GoString) (min max : Int) (fieldName : GoString) :
    (Contains field '/' = true → HasPrefix field "*/".toList = false →
        Contains field '-' = false → validateField field min max fieldName ≠ none) ∧
      (validateField field min max fieldName = none → Contains field '/' = true →
        (∃ rest k, field = "*/".toList ++ rest ∧ Atoi rest = some k ∧ 0 < k) ∨
        (∃ a b k, field = a ++ "/".toList ++ b ∧ validateRange a min max fieldName = none ∧
          Atoi b = some k ∧ 0 < k)) := by
  refine ⟨validateField_ne_none_of_slash_only field min max fieldName, ?_⟩
  intro h hslash
  cases hp : HasPrefix field "*/".toList with
  | true =>
    left
    obtain ⟨rest, rfl⟩ := HasPrefix_starSlash field hp
    rw [validateField_starSlash] at h
    split at h
    · exact absurd h (Option.some_ne_none _)
    · rename_i k hk
      refine ⟨rest, k, rfl, hk, ?_⟩
      by_contra hneg
      rw [if_pos (by omega)] at h
      exact absurd h (Option.some_ne_none _)
  | false =>
    right
    cases hm : Contains field '-' with
    | false =>
      exact absurd h (validateField_ne_none_of_slash_only field min max fieldName hslash hp hm)
    | true =>
      rw [validateField_of_slash_minus field min max fieldName hslash hm hp] at h
      split at h
      · rename_i p0 p1 hsp
        obtain ⟨hf, -, -⟩ := (Split_eq_pair_iff field p0 p1 '/').mp hsp
        split at h
        · exact absurd h (Option.some_ne_none _)
        · rename_i hr
          split at h
          · exact absurd h (Option.some_ne_none _)
          · rename_i k hk
            refine ⟨p0, p1, k, ?_, hr, hk, ?_⟩
            · rw [hf, List.append_assoc]; rfl
            · by_contra hneg
              rw [if_pos (by omega)] at h
              exact absurd h (Option.some_ne_none _)
      · exact absurd h (Option.some_ne_none _)

/-- C18 at `5/2` and `0/15` for the minute field: both are rejected. -/
theorem validateField_step_shape_witness :
    validateField "5/2".toList 0 59 "minute".toList ≠ none ∧
      validateField "0/15".toList 0 59 "minute".toList ≠ none :=
  ⟨(validateField_step_shape "5/2".toList 0 59 "minute".toList).1 (by decide) (by decide)
      (by decide),
   (validateField_step_shape "0/15".toList 0 59 "minute".toList).1 (by decide) (by decide)
      (by decide)⟩

/-! ## The descriptor -/

/-- C12: describe and validate agree. When `ValidateCronExpression` fails with error
`err`, `DescribeCronExpression` is `Invalid cron expression: ` followed by `err`; and
the description starts with `Invalid cron expression: ` exactly when the validator
fails, so whenever it is a schedule description the validator succeeds. -/
theorem describe_validate_agree (tbl : Char → Char) (x : GoString) :
    (∀ err, ValidateCronExpression tbl x = some err →
        DescribeCronExpression tbl x = "Invalid cron expression: ".toList ++ err) ∧
      (HasPrefix (DescribeCronExpression tbl x) "Invalid cron expression: ".toList = true ↔
        ValidateCronExpression tbl x ≠ none) := by
  refine ⟨describe_of_validate_error tbl x, ?_⟩
  cases hv : ValidateCronExpression tbl x with
  | none =>
    obtain ⟨c, rest, hd, hc⟩ := describe_valid_head tbl x hv
    rw [hd]
    constructor
    · intro h
      have h2 : "Invalid cron expression: ".toList <+: c :: rest := by
        simpa [HasPrefix] using h
      obtain ⟨r, hr⟩ := h2
      have h3 : ('I' :: ("nvalid cron expression: ".toList ++ r)) = c :: rest := hr
      simp only [List.cons.injEq] at h3
      exact absurd h3.1.symm hc
    · intro h
      exact absurd rfl h
  | some err =>
    rw [describe_of_validate_error tbl x err hv]
    constructor
    · intro _
      exact Option.some_ne_none _
    · intro _
      simp [HasPrefix]

/-- C12 at `60 * * * *`: the validator fails and the description carries its error. -/
theorem describe_validate_agree_witness :
    DescribeCronExpression id "60 * * * *".toList =
      "Invalid cron expression: field 1 (minute): value 60 out of bounds [0-59]".toList :=
  (describe_validate_agree id "60 * * * *".toList).1
    "field 1 (minute): value 60 out of bounds [0-59]".toList (by decide)

/-- C19: the second field-count check of `DescribeCronExpression` is unreachable. The
result is never `Invalid cron expression format`, because an input that is not a keyword
and passes `ValidateCronExpression` has exactly five fields, before and after trimming. -/
theorem describe_never_format_error (tbl : Char → Char) (x : GoString) :
    DescribeCronExpression tbl x ≠ "Invalid cron expression format".toList ∧
      (ToLower tbl (TrimSpace x) ∉ specialStrings → ValidateCronExpression tbl x = none →
        (Fields x).length = 5 ∧ (Fields (TrimSpace x)).length = 5) := by
  constructor
  · cases hv : ValidateCronExpression tbl x with
    | none =>
      obtain ⟨c, rest, hd, hc⟩ := describe_valid_head tbl x hv
      rw [hd]
      intro h
      have h3 : c :: rest = 'I' :: "nvalid cron expression format".toList := h
      simp only [List.cons.injEq] at h3
      exact hc h3.1
    | some err =>
      rw [describe_of_validate_error tbl x err hv]
      intro h
      have h3 : "Invalid cron expression".toList ++ (':' :: ' ' :: err) =
          "Invalid cron expression".toList ++ " format".toList := h
      have h4 := List.append_cancel_left h3
      have h5 : ':' :: ' ' :: err = ' ' :: "format".toList := h4
      simp only [List.cons.injEq] at h5
      exact absurd h5.1 (by decide)
  · intro hk hv
    obtain ⟨f0, f1, f2, f3, f4, hf⟩ := fields_of_validate_none tbl x hk hv
    rw [Fields_TrimSpace, hf]
    exact ⟨rfl, rfl⟩

/-- C19 at ` 0 0 1 1 * `: accepted, not a keyword, five fields. -/
theorem describe_never_format_error_witness :
    (Fields " 0 0 1 1 * ".toList).length = 5 ∧
      (Fields (TrimSpace " 0 0 1 1 * ".toList)).length = 5 :=
  (describe_never_format_error id " 0 0 1 1 * ".toList).2 (by decide) (by decide)

/-- C13: keyword case-insensitivity. For each of the eight keywords `k` and every
string `s` that equals `k` after trimming and lower-casing, `ValidateCronExpression`
succeeds and `DescribeCronExpression` returns the fixed description of `k`, the same as
for `k` itself; for `@reboot` it is `Once at system startup`. -/
theorem keyword_case_insensitive (tbl : Char → Char) (s k : GoString)
    (hk : k ∈ specialStrings) (hs : ToLower tbl (TrimSpace s) = k) :
    ValidateCronExpression tbl s = none ∧
      DescribeCronExpression tbl s = DescribeCronExpression tbl k ∧
      specialDescriptions.lookup k = some (DescribeCronExpression tbl s) ∧
      (k = "@reboot".toList → DescribeCronExpression tbl s = "Once at system startup".toList) := by
  have hv : ValidateCronExpression tbl s = none :=
    validate_none_of_keyword tbl s (by rw [hs]; exact hk)
  have hd : DescribeCronExpression tbl s =
      match specialDescriptions.lookup k with
      | some desc => desc
      | none => [] := by
    obtain ⟨d, hd, -⟩ := lookup_of_mem_specialStrings k hk
    rw [describeCronExpression_unfold, hs, hd]
  refine ⟨hv, ?_⟩
  simp only [specialStrings, List.mem_cons, List.mem_singleton, List.not_mem_nil, or_false]
    at hk
  rcases hk with rfl | rfl | rfl | rfl | rfl | rfl | rfl | rfl
  all_goals
    rw [hd]
    refine ⟨rfl, rfl, ?_⟩
    intro h
    first
      | rfl
      | exact absurd h (by decide)

/-- C13 at ` @YEARLY ` and at `@Reboot`. -/
theorem keyword_case_insensitive_witness :
    (ValidateCronExpression id " @YEARLY ".toList = none ∧
        DescribeCronExpression id " @YEARLY ".toList =
          "Once a year at midnight on January 1st (0 0 1 1 *)".toList) ∧
      DescribeCronExpression id "@Reboot".toList = "Once at system startup".toList :=
  ⟨⟨(keyword_case_insensitive id " @YEARLY ".toList "@yearly".toList (by decide)
        (by decide)).1,
     (keyword_case_insensitive id " @YEARLY ".toList "@yearly".toList (by decide)
        (by decide)).2.1⟩,
   (keyword_case_insensitive id "@Reboot".toList "@reboot".toList (by decide)
      (by decide)).2.2.2 rfl⟩

/-- C14: the description of a valid five-field expression. A non-keyword input accepted
by `ValidateCronExpression` has five fields, and `DescribeCronExpression` returns
`Every minute` when all of them are `*`, and otherwise the clauses of the fields
different from `*`, in field order, joined with `, `; a clause is the label of the field
followed by `every n` for a field `*/n` and by the field text for any other field. -/
theorem describe_valid_fields (tbl : Char → Char) (x : GoString)
    (hk : ToLower tbl (TrimSpace x) ∉ specialStrings)
    (hv : ValidateCronExpression tbl x = none) :
    (Fields x).length = 5 ∧ DescribeCronExpression tbl x = describeSpec (Fields x) := by
  obtain ⟨f0, f1, f2, f3, f4, hf⟩ := fields_of_validate_none tbl x hk hv
  rw [describeCronExpression_unfold, lookup_of_not_mem_specialStrings _ hk, hv, hf]
  exact ⟨rfl, describeParts_spec f0 f1 f2 f3 f4⟩

/-- C14 at `0 0 1 1 *` (no weekday clause) and at `*/15 * * * *`. -/
theorem describe_valid_fields_witness :
    DescribeCronExpression id "0 0 1 1 *".toList =
        "at minute 0, hour 0, on day 1, in month 1".toList ∧
      DescribeCronExpression id "*/15 * * * *".toList = "at minute every 15".toList :=
  ⟨(describe_valid_fields id "0 0 1 1 *".toList (by decide) (by decide)).2,
   (describe_valid_fields id "*/15 * * * *".toList (by decide) (by decide)).2⟩

/-- C15: white-space insensitivity. For a case table that maps white space to white
space, `ValidateCronExpression` and `DescribeCronExpression` give on every input the
result they give on its fields joined with single spaces. -/
theorem whitespace_insensitive (tbl : Char → Char) (e : GoString)
    (htbl : ∀ c, isSpace c = true → isSpace (tbl c) = true) :
    ValidateCronExpression tbl e = ValidateCronExpression tbl (Join (Fields e) " ".toList) ∧
      DescribeCronExpression tbl e =
        DescribeCronExpression tbl (Join (Fields e) " ".toList) :=
  ⟨(validate_normalForm tbl e htbl).symm, (describe_normalForm tbl e htbl).symm⟩

/-- C15 at an input with tabs and runs of spaces, whose normal form is `*/15 0 1,2 * 5-7`. -/
theorem whitespace_insensitive_witness :
    Join (Fields "  */15\t0   1,2 *  5-7 ".toList) " ".toList = "*/15 0 1,2 * 5-7".toList ∧
      ValidateCronExpression id "  */15\t0   1,2 *  5-7 ".toList =
        ValidateCronExpression id "*/15 0 1,2 * 5-7".toList ∧
      DescribeCronExpression id "  */15\t0   1,2 *  5-7 ".toList =
        DescribeCronExpression id "*/15 0 1,2 * 5-7".toList :=
  ⟨by decide,
   (whitespace_insensitive id "  */15\t0   1,2 *  5-7 ".toList (fun _ h => h)).1,
   (whitespace_insensitive id "  */15\t0   1,2 *  5-7 ".toList (fun _ h => h)).2⟩

/-! ## Checking an answer -/

/-- C16, as the code has it: `Koan.CheckAnswer` is true exactly when the user's answer
and the koan's `Answer` are equal after `normalizeAnswer`, that is after lower-casing
and then trimming the surrounding white space; an answer equal to `Answer` as a string
is always accepted; and the result depends on the koan only through its `Answer`, not on
whether the completed expression validates. -/
theorem checkAnswer_iff_normalized (tbl : Char → Char) (k : Koan) (u : GoString) :
    (k.CheckAnswer tbl u = true ↔
        TrimSpace (ToLower tbl u) = TrimSpace (ToLower tbl k.Answer)) ∧
      (u = k.Answer → k.CheckAnswer tbl u = true) ∧
      (∀ k2 : Koan, k2.Answer = k.Answer → k2.CheckAnswer tbl u = k.CheckAnswer tbl u) := by
  refine ⟨?_, ?_, ?_⟩
  · simp [Koan.CheckAnswer, normalizeAnswer]
  · rintro rfl
    simp [Koan.CheckAnswer]
  · intro k2 h
    simp [Koan.CheckAnswer, h]

/-- C16 as stated fails: for a koan whose `Answer` is `@daily`, the answers ` @daily `
and `@DAILY` are accepted although neither is equal to `@daily` as a string. -/
theorem checkAnswer_exact_counterexample :
    Koan.CheckAnswer id
        ⟨"k1".toList, [], [], "__".toList, "@daily".toList, [], []⟩ " @daily ".toList = true ∧
      " @daily ".toList ≠ "@daily".toList ∧
      Koan.CheckAnswer id
        ⟨"k1".toList, [], [], "__".toList, "@daily".toList, [], []⟩ "@DAILY".toList = true ∧
      "@DAILY".toList ≠ "@daily".toList := by
  decide

/-- C16 at a koan whose `Answer` is `*/15`: the answer ` */15` is accepted. -/
theorem checkAnswer_iff_normalized_witness :
    Koan.CheckAnswer id
      ⟨"k2".toList, [], [], "__ * * * *".toList, "*/15".toList, [], []⟩ " */15".toList = true :=
  (checkAnswer_iff_normalized id
    ⟨"k2".toList, [], [], "__ * * * *".toList, "*/15".toList, [], []⟩ " */15".toList).1.2
    (by decide)

end CronKoans
